import Mathlib

/-!
Verification development for the claude-model-mapping gateway.

This file gives a shallow embedding, in Lean, of the request-handling core
of the repository (the Anthropic↔Gemini message translator, the JSON-schema
whitelist cleaner, the model-prefix router, the thinking-block stripper of
the passthrough retry path, the 429 retry-delay parser, the incremental SSE
framer and the streaming translator state machine), together with theorems
about the embedded definitions.

Conventions of the embedding:
* JSON values are modelled by the mutual inductive family `Json` / `JsonA`
  (arrays) / `JsonO` (objects, as ordered key-value lists, mirroring the
  insertion order of JavaScript objects).
* JSON numbers are modelled as integers (`Int`); none of the verified code
  paths depends on fractional values.
* JavaScript truthiness is modelled explicitly where the source relies on
  it (`jsTruthy`, and option/string truthiness inline).
* The native `JSON.stringify` / `JSON.parse` builtins are modelled by
  `serializeJson` / `jsonParse` below.  The parser accepts integer numerals
  only (a fractional or exponent suffix makes it fail); this is a faithful
  model on every string produced by `serializeJson`.
-/

mutual

inductive Json where
  | null : Json
  | bool (b : Bool) : Json
  | num (n : Int) : Json
  | str (s : String) : Json
  | arr (xs : JsonA) : Json
  | obj (fs : JsonO) : Json
deriving DecidableEq

inductive JsonA where
  | nil : JsonA
  | cons (hd : Json) (tl : JsonA) : JsonA
deriving DecidableEq

inductive JsonO where
  | nil : JsonO
  | cons (k : String) (v : Json) (tl : JsonO) : JsonO
deriving DecidableEq

end

/-- List of keys of a JSON object, in order. -/
def JsonO.keys : JsonO → List String
  | .nil => []
  | .cons k _ tl => k :: tl.keys

/-- Membership of a key-value pair in a JSON object. -/
def JsonO.mem : JsonO → String → Json → Prop
  | .nil, _, _ => False
  | .cons k v tl, k0, v0 => (k = k0 ∧ v = v0) ∨ tl.mem k0 v0

/-- JavaScript truthiness of a JSON value: `null`, `false`, `0` and `""`
are falsy, every other value (including `[]` and the empty object) is truthy. -/
def jsTruthy : Json → Bool
  | .null => false
  | .bool b => b
  | .num n => n != 0
  | .str s => s != ""
  | .arr _ => true
  | .obj _ => true

/-- True exactly for arrays and objects: the JavaScript test
`typeof v === "object" && v !== null` (note that arrays are objects). -/
def isObjLike : Json → Bool
  | .arr _ => true
  | .obj _ => true
  | _ => false

/-- Decimal digit character for a value below ten. -/
def digitChar (n : Nat) : Char := Char.ofNat (48 + n)

/-- Fuel-driven decimal printer for naturals (the fuel only serves to make
the recursion structural; `natChars` always supplies enough). -/
def natCharsF : Nat → Nat → List Char
  | 0, _ => []
  | f+1, n => if n < 10 then [digitChar n] else natCharsF f (n / 10) ++ [digitChar (n % 10)]

/-- Decimal digits of a natural number, most significant first. -/
def natChars (n : Nat) : List Char := natCharsF (n + 1) n

/-- Decimal representation of an integer, as `JSON.stringify` prints it. -/
def intChars (n : Int) : List Char :=
  if n < 0 then '-' :: natChars n.natAbs else natChars n.toNat

/-- Hexadecimal digit character (lowercase) for a value below sixteen. -/
def hexDigit (n : Nat) : Char := Char.ofNat (if n < 10 then 48 + n else 87 + n)

/-- Escape of a single character inside a JSON string literal, exactly as
`JSON.stringify` produces it: `"` and `\` get a backslash escape, the five
control characters with shorthand escapes use them, the remaining control
characters use a `\u00XX` escape, and everything else is unchanged. -/
def escChar (c : Char) : List Char :=
  if c = '"' then ['\\', '"']
  else if c = '\\' then ['\\', '\\']
  else if c = '\x08' then ['\\', 'b']
  else if c = '\x09' then ['\\', 't']
  else if c = '\x0a' then ['\\', 'n']
  else if c = '\x0c' then ['\\', 'f']
  else if c = '\x0d' then ['\\', 'r']
  else if c.toNat < 32 then
    ['\\', 'u', '0', '0', hexDigit (c.toNat / 16), hexDigit (c.toNat % 16)]
  else [c]

/-- Serialized JSON string literal (including the surrounding quotes). -/
def serStr (s : String) : List Char :=
  '"' :: (s.toList.map escChar).flatten ++ ['"']

/-- The four characters of the `null` keyword. -/
def nullChars : List Char := ['n', 'u', 'l', 'l']

/-- The four characters of the `true` keyword. -/
def trueChars : List Char := ['t', 'r', 'u', 'e']

/-- The five characters of the `false` keyword. -/
def falseChars : List Char := ['f', 'a', 'l', 's', 'e']

mutual

/-- Model of `JSON.stringify` on a JSON value (character list form). -/
def serJ : Json → List Char
  | .null => nullChars
  | .bool true => trueChars
  | .bool false => falseChars
  | .num n => intChars n
  | .str s => serStr s
  | .arr xs => '[' :: serA xs ++ [']']
  | .obj fs => '\x7b' :: serO fs ++ ['\x7d']

/-- Serialization of the elements of a JSON array, comma separated. -/
def serA : JsonA → List Char
  | .nil => []
  | .cons x .nil => serJ x
  | .cons x (.cons y tl) => serJ x ++ ',' :: serA (.cons y tl)

/-- Serialization of the members of a JSON object, comma separated. -/
def serO : JsonO → List Char
  | .nil => []
  | .cons k v .nil => serStr k ++ ':' :: serJ v
  | .cons k v (.cons k2 v2 tl) => serStr k ++ ':' :: serJ v ++ ',' :: serO (.cons k2 v2 tl)

end

/-- Model of `JSON.stringify` returning a Lean `String`. -/
def serializeJson (j : Json) : String := String.mk (serJ j)

/-- JSON whitespace (the four characters `JSON.parse` skips between tokens). -/
def isJsonWs (c : Char) : Bool := c = ' ' || c = '\x09' || c = '\x0a' || c = '\x0d'

/-- Skip leading JSON whitespace. -/
def skipWs (s : List Char) : List Char := s.dropWhile isJsonWs

/-- Value of one hexadecimal digit character. -/
def hexVal (c : Char) : Option Nat :=
  if 48 ≤ c.toNat ∧ c.toNat ≤ 57 then some (c.toNat - 48)
  else if 97 ≤ c.toNat ∧ c.toNat ≤ 102 then some (c.toNat - 87)
  else if 65 ≤ c.toNat ∧ c.toNat ≤ 70 then some (c.toNat - 55)
  else none

/-- Decode a single-character JSON escape (everything but `\u`). -/
def escCode (e : Char) : Option Char :=
  if e = '"' then some '"'
  else if e = '\\' then some '\\'
  else if e = '/' then some '/'
  else if e = 'b' then some '\x08'
  else if e = 'f' then some '\x0c'
  else if e = 'n' then some '\x0a'
  else if e = 'r' then some '\x0d'
  else if e = 't' then some '\x09'
  else none

/-- Parse the body of a JSON string literal (the opening quote already
consumed): returns the decoded characters and the input after the closing
quote. -/
def parseStrBody : List Char → Option (List Char × List Char)
  | [] => none
  | c :: r =>
    if c = '"' then some ([], r)
    else if c = '\\' then
      match r with
      | [] => none
      | e :: r2 =>
        if e = 'u' then
          match r2 with
          | h1 :: h2 :: h3 :: h4 :: r3 =>
            (match hexVal h1, hexVal h2, hexVal h3, hexVal h4 with
             | some a, some b, some c2, some d =>
               (parseStrBody r3).map
                 (fun p => (Char.ofNat (((a * 16 + b) * 16 + c2) * 16 + d) :: p.1, p.2))
             | _, _, _, _ => none)
          | _ => none
        else
          match escCode e with
          | some dc => (parseStrBody r2).map (fun p => (dc :: p.1, p.2))
          | none => none
    else (parseStrBody r).map (fun p => (c :: p.1, p.2))

/-- Accumulate further decimal digits of a numeral. -/
def parseDigitsAux : List Char → Nat → Nat × List Char
  | c :: r, acc => if c.isDigit then parseDigitsAux r (acc * 10 + (c.toNat - 48)) else (acc, c :: r)
  | [], acc => (acc, [])

/-- Parse a nonempty run of decimal digits. -/
def parseNat : List Char → Option (Nat × List Char)
  | c :: r => if c.isDigit then some (parseDigitsAux r (c.toNat - 48)) else none
  | [] => none

/-- After an integer numeral, a fractional or exponent continuation makes the
modelled parser give up (numbers are modelled as integers). -/
def numStop : List Char → Bool
  | c :: _ => !(c = '.' || c = 'e' || c = 'E')
  | [] => true

/-- Parse the elements of a JSON array after the opening bracket, given a
parser `pv` for single values; the fuel only makes the recursion structural. -/
def parseElems (pv : List Char → Option (Json × List Char)) :
    Nat → List Char → Option (JsonA × List Char)
  | 0, _ => none
  | g+1, s =>
    match pv s with
    | none => none
    | some (v, r) =>
      (let r1 := skipWs r
       if r1.take 1 = [','] then
         (parseElems pv g (r1.drop 1)).map (fun p => (.cons v p.1, p.2))
       else if r1.take 1 = [']'] then some (.cons v .nil, r1.drop 1)
       else none)

/-- Parse the members of a JSON object after the opening brace, given a
parser `pv` for single values. -/
def parseMembers (pv : List Char → Option (Json × List Char)) :
    Nat → List Char → Option (JsonO × List Char)
  | 0, _ => none
  | g+1, s =>
    (let s1 := skipWs s
     if s1.take 1 = ['"'] then
       match parseStrBody (s1.drop 1) with
       | none => none
       | some (kcs, r2) =>
         (let r2a := skipWs r2
          if r2a.take 1 = [':'] then
            match pv (r2a.drop 1) with
            | none => none
            | some (v, r4) =>
              (let r4a := skipWs r4
               if r4a.take 1 = [','] then
                 (parseMembers pv g (r4a.drop 1)).map
                   (fun p => (.cons (String.mk kcs) v p.1, p.2))
               else if r4a.take 1 = ['\x7d'] then
                 some (.cons (String.mk kcs) v .nil, r4a.drop 1)
               else none)
          else none)
     else none)

/-- Parse one JSON value; the fuel only makes the recursion structural
(`jsonParse` always supplies enough). -/
def parseVal : Nat → List Char → Option (Json × List Char)
  | 0, _ => none
  | f+1, s =>
    match skipWs s with
    | [] => none
    | c :: r =>
      if c = 'n' then
        (if r.take 3 = ['u', 'l', 'l'] then some (.null, r.drop 3) else none)
      else if c = 't' then
        (if r.take 3 = ['r', 'u', 'e'] then some (.bool true, r.drop 3) else none)
      else if c = 'f' then
        (if r.take 4 = ['a', 'l', 's', 'e'] then some (.bool false, r.drop 4) else none)
      else if c = '"' then (parseStrBody r).map (fun p => (.str (String.mk p.1), p.2))
      else if c = '[' then
        (let r1 := skipWs r
         if r1.take 1 = [']'] then some (.arr .nil, r1.drop 1)
         else (parseElems (parseVal f) f r1).map (fun p => (.arr p.1, p.2)))
      else if c = '\x7b' then
        (let r1 := skipWs r
         if r1.take 1 = ['\x7d'] then some (.obj .nil, r1.drop 1)
         else (parseMembers (parseVal f) f r1).map (fun p => (.obj p.1, p.2)))
      else if c = '-' then
        (match parseNat r with
         | some (n, r2) => if numStop r2 then some (.num (-(n : Int)), r2) else none
         | none => none)
      else
        (match parseNat (c :: r) with
         | some (n, r2) => if numStop r2 then some (.num (n : Int), r2) else none
         | none => none)

/-- Model of `JSON.parse` on a character list: `none` models a thrown
`SyntaxError`. -/
def jsonParse (s : List Char) : Option Json :=
  match parseVal (s.length + 1) s with
  | some (v, rest) => if skipWs rest = [] then some v else none
  | none => none

/-! ### Schema cleaning (`cleanSchema` in `src/translator/messages.ts`) -/

/-- The whitelist `GEMINI_ALLOWED_SCHEMA_KEYS` of the source. -/
def GEMINI_ALLOWED_SCHEMA_KEYS : List String :=
  ["type", "description", "properties", "required", "items",
   "enum", "format", "nullable", "minimum", "maximum",
   "minItems", "maxItems", "minLength", "maxLength",
   "pattern", "default", "example", "title", "anyOf", "oneOf"]

def MAX_SCHEMA_DEPTH : Nat := 32

mutual

/-- Model of `cleanSchema(schema, isPropertyMap, depth)`: primitives are
returned unchanged, recursion stops beyond `MAX_SCHEMA_DEPTH`, arrays recurse
into object-like elements, and objects drop keys outside the whitelist unless
the current map is a `properties` map (whose keys are user-defined names). -/
def cleanSchema : Json → Bool → Nat → Json
  | .null, _, _ => .null
  | .bool b, _, _ => .bool b
  | .num n, _, _ => .num n
  | .str s, _, _ => .str s
  | .arr xs, _, d => if d > MAX_SCHEMA_DEPTH then .arr xs else .arr (cleanArr xs d)
  | .obj fs, pm, d => if d > MAX_SCHEMA_DEPTH then .obj fs else .obj (cleanFields fs pm d)

/-- Elementwise cleaning of a schema array (`schema.map(...)` in the source). -/
def cleanArr : JsonA → Nat → JsonA
  | .nil, _ => .nil
  | .cons v tl, d =>
    .cons (if isObjLike v then cleanSchema v false (d + 1) else v) (cleanArr tl d)

/-- Keywise cleaning of a schema object (the `Object.entries` loop). -/
def cleanFields : JsonO → Bool → Nat → JsonO
  | .nil, _, _ => .nil
  | .cons k v tl, pm, d =>
    if !pm && !(GEMINI_ALLOWED_SCHEMA_KEYS.contains k) then cleanFields tl pm d
    else .cons k (if isObjLike v then cleanSchema v (k == "properties") (d + 1) else v)
           (cleanFields tl pm d)

end

/-! ### Anthropic → Gemini message translation (`src/translator/messages.ts`)

`ABlock` models `AnthropicContentBlock`; the TS field `type` is called `ty`
here because `type` is a Lean keyword.  Optional fields are `Option`s; the
`content` of a `tool_result` is a string or a nested block list. -/

/-- Model of the `source` object of an `image` block. -/
structure ImgSource where
  ty : String
  media_type : Option String := none
  data : String := ""
deriving DecidableEq

inductive ABlock where
  | mk (ty : String)
       (text : Option String) (thinking : Option String) (signature : Option String)
       (id : Option String) (name : Option String) (tool_use_id : Option String)
       (input : Option Json) (content : Option (String ⊕ List ABlock))
       (source : Option ImgSource) : ABlock

def ABlock.ty : ABlock → String
  | .mk t _ _ _ _ _ _ _ _ _ => t

def ABlock.text : ABlock → Option String
  | .mk _ t _ _ _ _ _ _ _ _ => t

def ABlock.thinking : ABlock → Option String
  | .mk _ _ t _ _ _ _ _ _ _ => t

def ABlock.signature : ABlock → Option String
  | .mk _ _ _ s _ _ _ _ _ _ => s

def ABlock.id : ABlock → Option String
  | .mk _ _ _ _ i _ _ _ _ _ => i

def ABlock.name : ABlock → Option String
  | .mk _ _ _ _ _ n _ _ _ _ => n

def ABlock.tool_use_id : ABlock → Option String
  | .mk _ _ _ _ _ _ u _ _ _ => u

def ABlock.input : ABlock → Option Json
  | .mk _ _ _ _ _ _ _ i _ _ => i

def ABlock.content : ABlock → Option (String ⊕ List ABlock)
  | .mk _ _ _ _ _ _ _ _ c _ => c

def ABlock.source : ABlock → Option ImgSource
  | .mk _ _ _ _ _ _ _ _ _ s => s

/-- A `text` block with the given text. -/
def mkTextBlock (t : String) : ABlock :=
  .mk "text" (some t) none none none none none none none none

/-- A `thinking` block with the given thinking text and optional signature. -/
def mkThinkingBlock (th : String) (sig : Option String) : ABlock :=
  .mk "thinking" none (some th) sig none none none none none none

/-- A `tool_use` block. -/
def mkToolUseBlock (i n : String) (input : Option Json) : ABlock :=
  .mk "tool_use" none none none (some i) (some n) none input none none

/-- A `tool_result` block. -/
def mkToolResultBlock (tid : String) (c : Option (String ⊕ List ABlock)) : ABlock :=
  .mk "tool_result" none none none none none (some tid) none c none

/-- Model of `AnthropicMessage`. -/
structure AnthropicMessage where
  role : String
  content : String ⊕ List ABlock

/-- Model of `AnthropicTool`. -/
structure AnthropicTool where
  name : String
  description : Option String := none
  input_schema : Option Json := none
deriving DecidableEq

/-- Model of `tool_choice` (field `type` is `ty`). -/
structure ToolChoice where
  ty : String
  name : Option String := none
deriving DecidableEq

/-- Model of the `thinking` request option (field `type` is `ty`). -/
structure ThinkingOption where
  ty : String
  budget_tokens : Option Int := none
deriving DecidableEq

/-- Model of `AnthropicRequest`.  Numeric fields are modelled as integers;
`model` and `max_tokens` are optional because a parsed request body may lack
them at runtime even though the TS interface declares them. -/
structure AnthropicRequest where
  model : Option String := none
  max_tokens : Option Int := none
  messages : List AnthropicMessage := []
  system : Option (String ⊕ List ABlock) := none
  tools : Option (List AnthropicTool) := none
  stream : Option Bool := none
  temperature : Option Int := none
  top_p : Option Int := none
  top_k : Option Int := none
  stop_sequences : Option (List String) := none
  tool_choice : Option ToolChoice := none
  thinking : Option ThinkingOption := none
  metadata : Option Json := none

/-- Model of a Gemini `functionCall` part payload (`name` is optional since
the source reads `block.name!` which may be absent at runtime). -/
structure GFunctionCall where
  name : Option String := none
  args : Json := .obj .nil
deriving DecidableEq

/-- Model of a Gemini `functionResponse` part payload. -/
structure GFunctionResponse where
  name : String
  response : Json
deriving DecidableEq

/-- Model of a Gemini `inlineData` part payload. -/
structure GInlineData where
  mimeType : String
  data : String
deriving DecidableEq

/-- Model of `GeminiPart`. -/
structure GeminiPart where
  text : Option String := none
  thought : Option Bool := none
  thoughtSignature : Option String := none
  functionCall : Option GFunctionCall := none
  functionResponse : Option GFunctionResponse := none
  inlineData : Option GInlineData := none
deriving DecidableEq

/-- Model of `GeminiContent`. -/
structure GeminiContent where
  role : String
  parts : List GeminiPart
deriving DecidableEq

/-- Model of `GeminiFunctionDeclaration`. -/
structure GeminiFunctionDecl where
  name : String
  description : Option String := none
  parameters : Option Json := none
deriving DecidableEq

/-- Model of `toolConfig.functionCallingConfig`. -/
structure GToolConfig where
  mode : String
  allowedFunctionNames : Option (List (Option String)) := none
deriving DecidableEq

/-- Model of `generationConfig` (a key is present iff the field is `some`). -/
structure GenConfig where
  maxOutputTokens : Option Int := none
  temperature : Option Int := none
  topP : Option Int := none
  topK : Option Int := none
  stopSequences : Option (List String) := none
  thinkingBudget : Option Int := none
deriving DecidableEq

/-- The empty `generationConfig` (no keys). -/
def emptyGenConfig : GenConfig := {}

/-- Model of `GeminiRequest`. -/
structure GeminiRequest where
  contents : List GeminiContent
  systemInstruction : Option (List GeminiPart) := none
  tools : Option (List GeminiFunctionDecl) := none
  toolConfig : Option GToolConfig := none
  generationConfig : Option GenConfig := none
deriving DecidableEq

/-- `normalizeContent`: string content is lifted to a single text block. -/
def normalizeContent : String ⊕ List ABlock → List ABlock
  | .inl s => [mkTextBlock s]
  | .inr bs => bs

/-- The inner loop of `buildToolUseIdMap`: collect `tool_use` blocks whose
`id` and `name` are both truthy (nonempty). -/
def registerBlocks : List ABlock → List (String × String)
  | [] => []
  | b :: rest =>
    if b.ty = "tool_use" then
      match b.id, b.name with
      | some i, some n =>
        if i ≠ "" ∧ n ≠ "" then (i, n) :: registerBlocks rest else registerBlocks rest
      | _, _ => registerBlocks rest
    else registerBlocks rest

/-- `buildToolUseIdMap`: the `tool_use_id → name` map over assistant
messages, as an insertion-ordered association list. -/
def buildToolUseIdMap : List AnthropicMessage → List (String × String)
  | [] => []
  | m :: rest =>
    (if m.role = "assistant" then registerBlocks (normalizeContent m.content) else []) ++
      buildToolUseIdMap rest

/-- `Map.get`: later insertions overwrite earlier ones, so look from the end. -/
def mapGet (m : List (String × String)) (k : String) : Option String :=
  (m.reverse.find? (fun p => p.1 == k)).map (fun p => p.2)

/-- The name used for a `functionResponse`:
`toolIdMap.get(block.tool_use_id!) || "unknown_tool"`. -/
def lookupToolName (m : List (String × String)) (tid : Option String) : String :=
  match tid with
  | some t =>
    (match mapGet m t with
     | some n => if n ≠ "" then n else "unknown_tool"
     | none => "unknown_tool")
  | none => "unknown_tool"

/-- `extractToolResultContent`: a string is returned directly, a block list
is reduced to its truthy text blocks joined by newlines, absence gives `""`. -/
def extractToolResultContent (b : ABlock) : String :=
  match b.content with
  | none => ""
  | some (.inl s) => s
  | some (.inr bs) =>
    String.intercalate "\n" (bs.filterMap fun sb =>
      match sb.text with
      | some t => if sb.ty = "text" ∧ t ≠ "" then some t else none
      | none => none)

/-- `block.input || {}` of the `tool_use` case. -/
def jsOrEmptyObj : Option Json → Json
  | some j => if jsTruthy j then j else .obj .nil
  | none => .obj .nil

/-- One step of the per-message block loop of `anthropicToGemini`: returns
the parts pushed for this block and the updated `pendingThoughtSignature`. -/
def convertBlock (tm : List (String × String)) (b : ABlock) (pending : Option String) :
    List GeminiPart × Option String :=
  if b.ty = "text" then
    ((match b.text with
      | some t => if t ≠ "" then [{ text := some t }] else []
      | none => []), none)
  else if b.ty = "thinking" then
    ((match b.thinking with
      | some t => if t ≠ "" then [{ text := some t, thought := some true }] else []
      | none => []), b.signature)
  else if b.ty = "tool_use" then
    (let fc : GFunctionCall := { name := b.name, args := jsOrEmptyObj b.input }
     match pending with
     | some sig =>
       if sig ≠ "" then ([{ functionCall := some fc, thoughtSignature := some sig }], none)
       else ([{ functionCall := some fc }], pending)
     | none => ([{ functionCall := some fc }], pending))
  else if b.ty = "tool_result" then
    (let fr : GFunctionResponse :=
       { name := lookupToolName tm b.tool_use_id,
         response := .obj (.cons "result" (.str (extractToolResultContent b)) .nil) }
     ([{ functionResponse := some fr }], pending))
  else if b.ty = "image" then
    ((match b.source with
      | some src =>
        if src.ty = "base64" then
          (let idata : GInlineData :=
             { mimeType := (match src.media_type with
                            | some m => if m ≠ "" then m else "image/png"
                            | none => "image/png"),
               data := src.data }
           [{ inlineData := some idata }])
        else []
      | none => []), pending)
  else ([], pending)

/-- The full per-message block loop, threading `pendingThoughtSignature`. -/
def convertBlocksAux (tm : List (String × String)) :
    List ABlock → Option String → List GeminiPart
  | [], _ => []
  | b :: rest, pending =>
    (convertBlock tm b pending).1 ++ convertBlocksAux tm rest (convertBlock tm b pending).2

/-- Role mapping: `assistant → model`, everything else `→ user`. -/
def geminiRole (role : String) : String := if role = "assistant" then "model" else "user"

/-- Append a message's parts to the accumulated contents, merging with the
last content when the roles agree and dropping empty part lists. -/
def appendContent (acc : List GeminiContent) (role : String) (parts : List GeminiPart) :
    List GeminiContent :=
  if parts.length = 0 then acc
  else
    match acc.getLast? with
    | some last =>
      if last.role = role then
        acc.dropLast ++ [{ role := last.role, parts := last.parts ++ parts }]
      else acc ++ [{ role := role, parts := parts }]
    | none => acc ++ [{ role := role, parts := parts }]

/-- The message loop of `anthropicToGemini`, building `contents`. -/
def buildContents (tm : List (String × String)) :
    List AnthropicMessage → List GeminiContent → List GeminiContent
  | [], acc => acc
  | m :: rest, acc =>
    buildContents tm rest
      (appendContent acc (geminiRole m.role)
        (convertBlocksAux tm (normalizeContent m.content) none))

/-- JavaScript truthiness of the `system` field (an empty string is falsy,
any array is truthy). -/
def systemTruthy : String ⊕ List ABlock → Bool
  | .inl s => s ≠ ""
  | .inr _ => true

/-- The parts of `systemInstruction`. -/
def systemPartsOf : String ⊕ List ABlock → List GeminiPart
  | .inl s => [{ text := some s }]
  | .inr bs =>
    bs.filterMap fun b =>
      match b.text with
      | some t => if b.ty = "text" ∧ t ≠ "" then some ({ text := some t } : GeminiPart) else none
      | none => none

/-- The `systemInstruction` field of the produced request. -/
def systemInstructionOf (req : AnthropicRequest) : Option (List GeminiPart) :=
  match req.system with
  | some sys =>
    if systemTruthy sys then
      (let ps := systemPartsOf sys
       if ps.length > 0 then some ps else none)
    else none
  | none => none

/-- Translation of one tool declaration (schemas go through `cleanSchema`). -/
def toolDeclOf (t : AnthropicTool) : GeminiFunctionDecl :=
  { name := t.name,
    description := (match t.description with
                    | some d => if d ≠ "" then some d else none
                    | none => none),
    parameters := (match t.input_schema with
                   | some s => if jsTruthy s then some (cleanSchema s false 0) else none
                   | none => none) }

/-- The `tools` field of the produced request. -/
def toolsOf (req : AnthropicRequest) : Option (List GeminiFunctionDecl) :=
  match req.tools with
  | some ts => if ts.length > 0 then some (ts.map toolDeclOf) else none
  | none => none

/-- The `toolConfig` field (only produced when tools were produced). -/
def toolConfigOf (req : AnthropicRequest) : Option GToolConfig :=
  match toolsOf req with
  | some _ =>
    (match req.tool_choice with
     | some tc =>
       if tc.ty = "none" then some { mode := "NONE" }
       else if tc.ty = "any" then some { mode := "ANY" }
       else if tc.ty = "tool" then
         some { mode := "ANY", allowedFunctionNames := some [tc.name] }
       else some { mode := "AUTO" }
     | none => none)
  | none => none

/-- The assembled `generationConfig` record. -/
def genConfigOf (req : AnthropicRequest) : GenConfig :=
  { maxOutputTokens := (match req.max_tokens with
                        | some m => if m ≠ 0 then some m else none
                        | none => none),
    temperature := req.temperature,
    topP := req.top_p,
    topK := req.top_k,
    stopSequences := req.stop_sequences,
    thinkingBudget := (match req.thinking with
                       | some th =>
                         if th.ty = "enabled" then
                           (match th.budget_tokens with
                            | some b => if b ≠ 0 then some b else none
                            | none => none)
                         else none
                       | none => none) }

/-- Model of `anthropicToGemini`. -/
def anthropicToGemini (req : AnthropicRequest) : GeminiRequest :=
  { contents := buildContents (buildToolUseIdMap req.messages) req.messages [],
    systemInstruction := systemInstructionOf req,
    tools := toolsOf req,
    toolConfig := toolConfigOf req,
    generationConfig :=
      (let gc := genConfigOf req
       if gc = emptyGenConfig then none else some gc) }

/-! ### Router (`src/router.ts`) -/

/-- The two dispositions of a request. -/
inductive Route where
  | intercept : Route
  | passthrough : Route
deriving DecidableEq

/-- The `{sourceModel, targetModel}` mapping configuration. -/
structure MappingConfig where
  sourceModel : String
  targetModel : String

/-- Model of JavaScript `s.startsWith(pre)`: a pure prefix test on the
character sequence. -/
def strStartsWith (s pre : String) : Bool :=
  s.toList.take pre.toList.length == pre.toList

/-- Model of `req.url?.split("?")[0]`: the characters before the first `?`
(the whole string when there is none). -/
def urlPathOf (url : String) : String := String.mk (url.toList.takeWhile (fun c => c ≠ '?'))

/-- Routing decision of `createRouter`'s request handler for a fully read
body: `parsedBody = none` models a `JSON.parse` (or property access) throw,
which the source catches and sends to passthrough.  `body.model || ""` is
modelled by `Option.getD` composed with the empty-string fallback. -/
def routeDecision (mapping : MappingConfig) (method : String) (url : String)
    (parsedBody : Option AnthropicRequest) : Route :=
  if method = "POST" ∧ urlPathOf url = "/v1/messages" then
    match parsedBody with
    | some body =>
      let model := body.model.getD ""
      if strStartsWith model mapping.sourceModel then .intercept else .passthrough
    | none => .passthrough
  else .passthrough

/-- Per-message transform of `stripThinkingBlocks`: assistant messages with
array content have their `thinking` blocks filtered out, but if nothing
would remain the original message is returned unchanged. -/
def stripMsg (m : AnthropicMessage) : AnthropicMessage :=
  if m.role ≠ "assistant" then m
  else
    match m.content with
    | .inl _ => m
    | .inr blocks =>
      let filtered := blocks.filter fun b => b.ty != "thinking"
      if filtered.length = 0 then m else { m with content := .inr filtered }

/-- Model of `stripThinkingBlocks` (`src/router.ts`). -/
def stripThinkingBlocks (body : AnthropicRequest) : AnthropicRequest :=
  { body with messages := body.messages.map stripMsg }

/-! ### Retry-delay parsing (`parseRetryDelay` in `src/providers/proxy.ts`) -/

/-- JavaScript whitespace as used by `parseInt`, `trim` and the regex
class `\s` (restricted to its ASCII members in this model). -/
def isJsWs (c : Char) : Bool :=
  c = ' ' || c = '\x09' || c = '\x0a' || c = '\x0d' || c = '\x0b' || c = '\x0c'

/-- Accumulate hexadecimal digits (for `parseInt`'s `0x` prefix handling). -/
def parseHexAux : List Char → Nat → Nat × List Char
  | c :: r, acc =>
    (match hexVal c with
     | some v => parseHexAux r (acc * 16 + v)
     | none => (acc, c :: r))
  | [], acc => (acc, [])

/-- Model of JavaScript `parseInt(s)` (radix unspecified): skip leading
whitespace, optional sign, hexadecimal when prefixed `0x`/`0X`, otherwise
the maximal run of decimal digits; `none` models `NaN`. -/
def jsParseInt (s : String) : Option Int :=
  let l := s.toList.dropWhile isJsWs
  let signed : Int × List Char :=
    match l with
    | '-' :: r => (-1, r)
    | '+' :: r => (1, r)
    | _ => (1, l)
  match signed.2 with
  | '0' :: 'x' :: r =>
    (match r with
     | c :: rest =>
       (match hexVal c with
        | some v => some (signed.1 * ((parseHexAux rest v).1 : Int))
        | none => none)
     | [] => none)
  | '0' :: 'X' :: r =>
    (match r with
     | c :: rest =>
       (match hexVal c with
        | some v => some (signed.1 * ((parseHexAux rest v).1 : Int))
        | none => none)
     | [] => none)
  | c :: rest =>
    if c.isDigit then some (signed.1 * ((parseDigitsAux rest (c.toNat - 48)).1 : Int))
    else none
  | [] => none

/-- Case-insensitive match of a lowercase literal (`lit`) against the head
of the input, returning the remainder. -/
def matchLit : List Char → List Char → Option (List Char)
  | [], s => some s
  | c :: cs, d :: ds => if d.toLower = c then matchLit cs ds else none
  | _ :: _, [] => none

/-- Require at least one `\s`, then consume the maximal run (the greedy
semantics coincide with the regex here since what follows is never
whitespace). -/
def ws1Plus : List Char → Option (List Char)
  | c :: r => if isJsWs c then some (r.dropWhile isJsWs) else none
  | [] => none

/-- After `reset`/`retry` was matched: `\s+after\s+(\d+)\s*s`, returning the
captured number. -/
def matchAfterKw (l : List Char) : Option Nat :=
  match ws1Plus l with
  | some l1 =>
    (match matchLit ("after".toList) l1 with
     | some l2 =>
       (match ws1Plus l2 with
        | some l3 =>
          (match l3 with
           | c :: r =>
             if c.isDigit then
               (let p := parseDigitsAux r (c.toNat - 48)
                match p.2.dropWhile isJsWs with
                | d :: _ => if d = 's' ∨ d = 'S' then some p.1 else none
                | [] => none)
             else none
           | [] => none)
        | none => none)
     | none => none)
  | none => none

/-- Match of `(?:reset|retry)\s+after\s+(\d+)\s*s` (case-insensitive)
anchored at the current position. -/
def matchAt (l : List Char) : Option Nat :=
  match matchLit ("reset".toList) l with
  | some r => matchAfterKw r
  | none =>
    (match matchLit ("retry".toList) l with
     | some r => matchAfterKw r
     | none => none)

/-- Leftmost match of the retry-delay pattern in the body. -/
def firstRetryMatch : List Char → Option Nat
  | [] => none
  | c :: r =>
    match matchAt (c :: r) with
    | some n => some n
    | none => firstRetryMatch r

def DEFAULT_RETRY_DELAY : Nat := 10000

/-- Model of `parseRetryDelay(body, retryAfterHeader)` returning the delay
in milliseconds. -/
def parseRetryDelay (body : String) (retryAfterHeader : Option String) : Nat :=
  let fromBody : Nat :=
    match firstRetryMatch body.toList with
    | some n => n * 1000
    | none => DEFAULT_RETRY_DELAY
  match retryAfterHeader with
  | some h =>
    if h ≠ "" then
      match jsParseInt h with
      | some secs => if 0 < secs then secs.toNat * 1000 else fromBody
      | none => fromBody
    else fromBody
  | none => fromBody

/-! ### SSE framer (`SSEParser` in `src/translator/streaming.ts`) -/

def MAX_SSE_BUFFER : Nat := 5 * 1024 * 1024

/-- Model of `buffer.split("\n\n")` followed by `parts.pop()`: the complete
blocks and the retained trailing incomplete block. -/
def splitBuf : List Char → List (List Char) × List Char
  | [] => ([], [])
  | [c] => ([], [c])
  | c1 :: c2 :: rest =>
    if c1 = '\x0a' ∧ c2 = '\x0a' then
      (let p := splitBuf rest
       ([] :: p.1, p.2))
    else
      (let p := splitBuf (c2 :: rest)
       match p.1 with
       | [] => ([], c1 :: p.2)
       | b :: bs => ((c1 :: b) :: bs, p.2))

/-- Model of `block.split("\n")`. -/
def splitLines : List Char → List (List Char)
  | [] => [[]]
  | c :: rest =>
    if c = '\x0a' then [] :: splitLines rest
    else
      (match splitLines rest with
       | [] => [[c]]
       | l :: ls => (c :: l) :: ls)

/-- The six characters `data: ` that open a data line. -/
def dataMarker : List Char := ['d', 'a', 't', 'a', ':', ' ']

/-- Model of `SSEParser.parseBlock`: gather `data: ` lines, join with
newlines, JSON-parse; malformed JSON or no data lines give `none`. -/
def parseBlock (block : List Char) : Option Json :=
  let dataLines := (splitLines block).filterMap fun l =>
    if l.take 6 = dataMarker then some (l.drop 6) else none
  match dataLines with
  | [] => none
  | _ => jsonParse (List.intercalate ['\x0a'] dataLines)

/-- Model of `SSEParser.feed`: append the chunk, fail on buffer overflow,
otherwise emit the events of all complete blocks and retain the rest. -/
def sseFeed (buf chunk : List Char) : Except String (List Json × List Char) :=
  let buf2 := buf ++ chunk
  if buf2.length > MAX_SSE_BUFFER then
    .error "SSE buffer overflow — response too large"
  else
    (let p := splitBuf buf2
     .ok (p.1.filterMap parseBlock, p.2))

/-- Model of `SSEParser.flush`: parse the remaining buffer when its trim is
nonempty (all-whitespace means empty trim). -/
def sseFlush (buf : List Char) : List Json :=
  if buf.all isJsWs then []
  else
    match parseBlock buf with
    | some e => [e]
    | none => []

/-- Feed a sequence of chunks to a fresh framer, then flush; collects all
events, or the overflow error. -/
def runFramerAux : List Char → List (List Char) → Except String (List Json)
  | buf, [] => .ok (sseFlush buf)
  | buf, c :: cs =>
    match sseFeed buf c with
    | .error e => .error e
    | .ok p =>
      (match runFramerAux p.2 cs with
       | .error e => .error e
       | .ok evs2 => .ok (p.1 ++ evs2))

/-- Run the framer from an empty buffer. -/
def runFramer (chunks : List (List Char)) : Except String (List Json) :=
  runFramerAux [] chunks

/-- Frame one JSON event as an SSE block (`data: <json>\n\n`). -/
def sseFrame (e : Json) : List Char := dataMarker ++ serJ e ++ ['\x0a', '\x0a']

/-! ### Stream translator (`StreamTranslator` in `src/translator/streaming.ts`)

The `crypto.randomBytes`-based id and signature minting is modelled by a
deterministic counter (`nextId`) in the state; no verified property depends
on the content of the minted strings. -/

inductive ActiveKind where
  | text : ActiveKind
  | thinking : ActiveKind
deriving DecidableEq

/-- Payload of a `content_block_start` event. -/
inductive BlockInfo where
  | textStart : BlockInfo
  | thinkingStart : BlockInfo
  | toolUseStart (id : String) (name : String) : BlockInfo
deriving DecidableEq

/-- Payload of a `content_block_delta` event. -/
inductive DeltaInfo where
  | textDelta (t : String) : DeltaInfo
  | thinkingDelta (t : String) : DeltaInfo
  | signatureDelta (sig : String) : DeltaInfo
  | inputJsonDelta (partialJson : String) : DeltaInfo
deriving DecidableEq

/-- The Anthropic SSE events emitted by the stream translator, with the
payload fields the verified properties depend on. -/
inductive AnthEvent where
  | messageStart (id : String) (model : String) (inputTokens : Int) : AnthEvent
  | ping : AnthEvent
  | contentBlockStart (index : Nat) (block : BlockInfo) : AnthEvent
  | contentBlockDelta (index : Nat) (delta : DeltaInfo) : AnthEvent
  | contentBlockStop (index : Nat) : AnthEvent
  | messageDelta (stopReason : String) (outputTokens : Int) : AnthEvent
  | messageStop : AnthEvent
  | errorEvent (message : String) : AnthEvent
deriving DecidableEq

/-- A streamed Gemini part (`functionCall.name` is a required string in the
streaming interface; `args` may be absent). -/
structure SFunctionCall where
  name : String
  args : Option Json := none
deriving DecidableEq

structure GPartS where
  text : Option String := none
  thought : Option Bool := none
  functionCall : Option SFunctionCall := none
deriving DecidableEq

/-- A streamed candidate; `parts` models `candidate.content?.parts || []`. -/
structure SCandidate where
  parts : List GPartS := []
  finishReason : Option String := none
deriving DecidableEq

structure SUsage where
  promptTokenCount : Option Int := none
  candidatesTokenCount : Option Int := none
deriving DecidableEq

/-- A streamed Gemini chunk; `candidates` models `chunk.candidates || []`. -/
structure GChunk where
  candidates : List SCandidate := []
  usageMetadata : Option SUsage := none
  error : Option Json := none
deriving DecidableEq

/-- The stream translator state. -/
structure STState where
  messageId : String
  fakeModel : String
  blockIndex : Nat := 0
  activeBlockType : Option ActiveKind := none
  started : Bool := false
  hasFunctionCall : Bool := false
  inputTokens : Int := 0
  outputTokens : Int := 0
  nextId : Nat := 0
deriving DecidableEq

/-- Deterministic stand-in for `generateToolUseId()`. -/
def mkToolUseId (n : Nat) : String := "toolu_cmm_" ++ toString n

/-- Deterministic stand-in for the random `signature_delta` payload. -/
def mkSignature (n : Nat) : String := "sig_" ++ toString n

/-- Emit a `signature_delta` for the open thinking block. -/
def emitSigDelta (st : STState) : List AnthEvent × STState :=
  ([.contentBlockDelta st.blockIndex (.signatureDelta (mkSignature st.nextId))],
   { st with nextId := st.nextId + 1 })

/-- Translate one part (the body of the per-part loop of `processChunk`). -/
def processPart (st : STState) (p : GPartS) : List AnthEvent × STState :=
  match p.functionCall with
  | some fc =>
    let c1 : List AnthEvent × STState :=
      match st.activeBlockType with
      | some k =>
        (let s := if k = ActiveKind.thinking then emitSigDelta st else ([], st)
         (s.1 ++ [.contentBlockStop s.2.blockIndex],
          { s.2 with blockIndex := s.2.blockIndex + 1, activeBlockType := none }))
      | none => ([], st)
    let st1 := { c1.2 with hasFunctionCall := true }
    let tid := mkToolUseId st1.nextId
    let st2 := { st1 with nextId := st1.nextId + 1 }
    (c1.1 ++
      [.contentBlockStart st2.blockIndex (.toolUseStart tid fc.name),
       .contentBlockDelta st2.blockIndex
         (.inputJsonDelta (serializeJson (jsOrEmptyObj fc.args))),
       .contentBlockStop st2.blockIndex],
     { st2 with blockIndex := st2.blockIndex + 1 })
  | none =>
    if p.thought.getD false = true ∧ (p.text.getD "") ≠ "" then
      let t := p.text.getD ""
      let c1 : List AnthEvent × STState :=
        if st.activeBlockType ≠ some ActiveKind.thinking then
          (let c0 : List AnthEvent × STState :=
             match st.activeBlockType with
             | some _ =>
               ([.contentBlockStop st.blockIndex],
                { st with blockIndex := st.blockIndex + 1 })
             | none => ([], st)
           (c0.1 ++ [.contentBlockStart c0.2.blockIndex .thinkingStart],
            { c0.2 with activeBlockType := some ActiveKind.thinking }))
        else ([], st)
      (c1.1 ++ [.contentBlockDelta c1.2.blockIndex (.thinkingDelta t)], c1.2)
    else if (p.text.getD "") ≠ "" then
      let t := p.text.getD ""
      let c1 : List AnthEvent × STState :=
        if st.activeBlockType ≠ some ActiveKind.text then
          (let c0 : List AnthEvent × STState :=
             match st.activeBlockType with
             | some k =>
               (let s := if k = ActiveKind.thinking then emitSigDelta st else ([], st)
                (s.1 ++ [.contentBlockStop s.2.blockIndex],
                 { s.2 with blockIndex := s.2.blockIndex + 1 }))
             | none => ([], st)
           (c0.1 ++ [.contentBlockStart c0.2.blockIndex .textStart],
            { c0.2 with activeBlockType := some ActiveKind.text }))
        else ([], st)
      (c1.1 ++ [.contentBlockDelta c1.2.blockIndex (.textDelta t)], c1.2)
    else ([], st)

/-- Translate the `finishReason` handling at the end of a candidate. -/
def processFinish (st : STState) (finishReason : Option String) : List AnthEvent × STState :=
  match finishReason with
  | some fr =>
    if fr ≠ "" then
      (let c1 : List AnthEvent × STState :=
         match st.activeBlockType with
         | some k =>
           (let s := if k = ActiveKind.thinking then emitSigDelta st else ([], st)
            (s.1 ++ [.contentBlockStop s.2.blockIndex],
             { s.2 with activeBlockType := none }))
         | none => ([], st)
       (c1.1 ++
         [.messageDelta (if c1.2.hasFunctionCall then "tool_use" else "end_turn")
            c1.2.outputTokens,
          .messageStop], c1.2))
    else ([], st)
  | none => ([], st)

/-- Translate a list of parts in order. -/
def processParts : STState → List GPartS → List AnthEvent × STState
  | st, [] => ([], st)
  | st, p :: ps =>
    (let a := processPart st p
     let b := processParts a.2 ps
     (a.1 ++ b.1, b.2))

/-- Translate one candidate: its parts, then its finish handling. -/
def processCandidate (st : STState) (cand : SCandidate) : List AnthEvent × STState :=
  let a := processParts st cand.parts
  let b := processFinish a.2 cand.finishReason
  (a.1 ++ b.1, b.2)

/-- Translate a list of candidates in order. -/
def processCandidates : STState → List SCandidate → List AnthEvent × STState
  | st, [] => ([], st)
  | st, c :: cs =>
    (let a := processCandidate st c
     let b := processCandidates a.2 cs
     (a.1 ++ b.1, b.2))

/-- Track usage from any chunk that has it (zero counts are falsy and thus
ignored, as in the source). -/
def updateUsage (st : STState) (u : Option SUsage) : STState :=
  match u with
  | some us =>
    (let st1 :=
       match us.promptTokenCount with
       | some n => if n ≠ 0 then { st with inputTokens := n } else st
       | none => st
     match us.candidatesTokenCount with
     | some n => if n ≠ 0 then { st1 with outputTokens := n } else st1
     | none => st1)
  | none => st

/-- The `message_start` / `ping` prelude, emitted once. -/
def preludeEvents (st : STState) : List AnthEvent × STState :=
  if st.started = false then
    ([.messageStart st.messageId st.fakeModel st.inputTokens, .ping],
     { st with started := true })
  else ([], st)

/-- Model of `StreamTranslator.processChunk`. -/
def processChunk (st : STState) (c : GChunk) : List AnthEvent × STState :=
  if (match c.error with | some e => jsTruthy e | none => false) then
    ([.errorEvent ("Gemini API error: " ++ serializeJson (c.error.getD .null))], st)
  else
    let st1 := updateUsage st c.usageMetadata
    let a := preludeEvents st1
    let b := processCandidates a.2 c.candidates
    (a.1 ++ b.1, b.2)

/-- Process a whole chunk sequence, concatenating the emitted events. -/
def processMany : STState → List GChunk → List AnthEvent × STState
  | st, [] => ([], st)
  | st, c :: cs =>
    (let a := processChunk st c
     let b := processMany a.2 cs
     (a.1 ++ b.1, b.2))

/-- A fresh translator state (`new StreamTranslator(fakeModel)`). -/
def initST (msgId fakeModel : String) : STState :=
  { messageId := msgId, fakeModel := fakeModel }

/-- All events of a fresh translator fed the given chunks. -/
def runStream (msgId fakeModel : String) (chunks : List GChunk) : List AnthEvent :=
  (processMany (initST msgId fakeModel) chunks).1

/-! ### Observations on event traces (used to state the stream properties) -/

/-- Block-event audit automaton: scans a trace with a next-index counter and
an open-block flag, accepting well-bracketed block events with strictly
increasing indices; non-block events are ignored. -/
def audit : List AnthEvent → Nat → Bool → Option (Nat × Bool)
  | [], n, o => some (n, o)
  | .contentBlockStart i _ :: rest, n, o =>
    if o = false ∧ i = n then audit rest n true else none
  | .contentBlockDelta i _ :: rest, n, o =>
    if o = true ∧ i = n then audit rest n true else none
  | .contentBlockStop i :: rest, n, o =>
    if o = true ∧ i = n then audit rest (n + 1) false else none
  | _ :: rest, n, o => audit rest n o

/-- The subsequence of block events carrying index `i`. -/
def filtAt (i : Nat) (evs : List AnthEvent) : List AnthEvent :=
  evs.filter fun e =>
    match e with
    | .contentBlockStart j _ => j == i
    | .contentBlockDelta j _ => j == i
    | .contentBlockStop j => j == i
    | _ => false

/-- The indices of the `content_block_start` events, in order. -/
def startIndices (evs : List AnthEvent) : List Nat :=
  evs.filterMap fun e =>
    match e with
    | .contentBlockStart j _ => some j
    | _ => none

/-- The block events at index `i` either do not occur, or form exactly one
`content_block_start`, then only deltas, then exactly one
`content_block_stop`. -/
def closedOrAbsent (i : Nat) (evs : List AnthEvent) : Prop :=
  filtAt i evs = [] ∨
  ∃ b ds, filtAt i evs = AnthEvent.contentBlockStart i b :: (ds ++ [AnthEvent.contentBlockStop i]) ∧
    ∀ e ∈ ds, ∃ d, e = AnthEvent.contentBlockDelta i d

/-- Truthiness of a candidate's `finishReason`. -/
def candFinish (c : SCandidate) : Bool :=
  match c.finishReason with
  | some s => s ≠ ""
  | none => false

/-- A chunk whose `error` field is truthy takes the error short-circuit. -/
def chunkErr (c : GChunk) : Bool :=
  match c.error with
  | some e => jsTruthy e
  | none => false

/-! ### Auxiliary predicates and concrete inputs used by the theorems -/

/-- A block that neither produces text/thinking state changes nor consumes
the pending thought signature: its type is none of `text`, `thinking`,
`tool_use`. -/
def inertBlock (b : ABlock) : Bool :=
  b.ty != "text" && b.ty != "thinking" && b.ty != "tool_use"

/-- `tid` is registered with name `n` by some assistant `tool_use` block of
the history (with the truthy `id`/`name` the source requires). -/
def registeredIn (msgs : List AnthropicMessage) (tid n : String) : Bool :=
  msgs.any fun m => m.role == "assistant" &&
    (normalizeContent m.content).any fun blk =>
      blk.ty == "tool_use" && blk.id == some tid && blk.name == some n &&
        tid != "" && n != ""

/-- Number of `thinking` blocks in a message's array content. -/
def thinkCount (m : AnthropicMessage) : Nat :=
  match m.content with
  | .inl _ => 0
  | .inr bs => (bs.filter fun b => b.ty == "thinking").length

/-- C3 counterexample: thinking (with signature), then text, then tool_use. -/
def exC3req : AnthropicRequest :=
  { messages := [
      { role := "assistant",
        content := .inr [mkThinkingBlock "think" (some "sigX"), mkTextBlock "hello",
                         mkToolUseBlock "t1" "Read" none] }] }

/-- C6 counterexample: a `tool_use` with empty `id` and a `tool_result`
whose `tool_use_id` is that same empty string. -/
def exC6req : AnthropicRequest :=
  { messages := [
      { role := "assistant", content := .inr [mkToolUseBlock "" "Read" none] },
      { role := "user", content := .inr [mkToolResultBlock "" (some (.inl "file"))] }] }

/-- The S3 history: an assistant `tool_use` then a user `tool_result`. -/
def exS3msgs : List AnthropicMessage :=
  [{ role := "user", content := .inl "hi" },
   { role := "assistant", content := .inr [mkToolUseBlock "toolu_123" "Read" none] },
   { role := "user", content := .inr [mkToolResultBlock "toolu_123" (some (.inl "file"))] }]

/-- C8 counterexample: an assistant message consisting only of a thinking
block. -/
def exC8req : AnthropicRequest :=
  { messages := [
      { role := "assistant", content := .inr [mkThinkingBlock "secret" (some "s")] }] }

/-- C8 witness blocks: a thinking block beside a text block. -/
def exC8blocks : List ABlock := [mkThinkingBlock "secret" (some "s"), mkTextBlock "keep"]

/-- C8 witness request. -/
def exC8breq : AnthropicRequest :=
  { messages := [{ role := "assistant", content := .inr exC8blocks }] }

/-- The S4 schema-cleaning input. -/
def s4Input : Json :=
  .obj (.cons "type" (.str "object")
    (.cons "properties" (.obj (.cons "age" (.obj (.cons "type" (.str "number")
      (.cons "exclusiveMinimum" (.num 0) .nil))) .nil))
    (.cons "additionalProperties" (.bool false)
    (.cons "$schema" (.str "http://json-schema.org/draft-07/schema#") .nil))))

/-- The S4 schema-cleaning expected output. -/
def s4Output : Json :=
  .obj (.cons "type" (.str "object")
    (.cons "properties" (.obj (.cons "age" (.obj (.cons "type" (.str "number") .nil)) .nil))
      .nil))

/-- The two S5 chunks. -/
def s5Chunk1 : List Char := "data: \x7b\"a\":1\x7d\x0a\x0adata: \x7b\"b\":".toList

def s5Chunk2 : List Char := "2\x7d\x0a\x0a".toList

/-- The S5 events. -/
def s5EventA : Json := .obj (.cons "a" (.num 1) .nil)

def s5EventB : Json := .obj (.cons "b" (.num 2) .nil)

/-- The buffer retained between the two S5 feeds. -/
def s5Rem : List Char := "data: \x7b\"b\":".toList

/-- An event whose frame exceeds the 5 MiB SSE buffer bound. -/
def bigEvent : Json := .str (String.mk (List.replicate 6000000 'a'))

/-- C1 counterexample chunks: a finishing text chunk followed by another
content chunk. -/
def exChunkFinish : GChunk :=
  { candidates := [{ parts := [{ text := some "Hi" }], finishReason := some "STOP" }] }

def exChunkAfter : GChunk :=
  { candidates := [{ parts := [{ text := some "Bye" }] }] }

/-- C1 witness chunks: a text chunk, then a finishing text chunk with usage. -/
def wChunk1 : GChunk := { candidates := [{ parts := [{ text := some "Hello" }] }] }

def wChunk2 : GChunk :=
  { candidates := [{ parts := [{ text := some " world" }], finishReason := some "STOP" }],
    usageMetadata := some { promptTokenCount := some 10, candidatesTokenCount := some 5 } }

/-- A continuation on which a serialized numeral parse is stable: it does
not begin with a digit or a fractional/exponent marker. -/
def numSafe : List Char → Prop
  | c :: _ => c.isDigit = false ∧ c ≠ '.' ∧ c ≠ 'e' ∧ c ≠ 'E'
  | [] => True

/-! ## Theorems -/

/-- The modelled `startsWith` is exactly the prefix relation on the
character sequences. -/
theorem strStartsWith_iff (s pre : String) :
    strStartsWith s pre = true ↔ ∃ t, s.toList = pre.toList ++ t := by
  unfold strStartsWith
  constructor
  · intro h
    refine ⟨s.toList.drop pre.toList.length, ?_⟩
    conv_lhs => rw [← List.take_append_drop pre.toList.length s.toList]
    rw [eq_of_beq h]
  · rintro ⟨t, ht⟩
    rw [ht, List.take_left]
    simp

/-- C2: for every POST `/v1/messages` request whose body parses as JSON, the
router chooses Intercept exactly when the request's model string (the empty
string if the model field is absent) starts with `mapping.sourceModel`, and
Passthrough otherwise; the match is a pure string-prefix test (second
conjunct). -/
theorem routing_prefix_iff (mapping : MappingConfig) (method url : String)
    (body : AnthropicRequest)
    (hm : method = "POST") (hu : urlPathOf url = "/v1/messages") :
    (routeDecision mapping method url (some body) = .intercept ↔
      strStartsWith (body.model.getD "") mapping.sourceModel = true) ∧
    (strStartsWith (body.model.getD "") mapping.sourceModel = true ↔
      ∃ t, (body.model.getD "").toList = mapping.sourceModel.toList ++ t) := by
  subst hm
  refine ⟨?_, strStartsWith_iff _ _⟩
  by_cases h : strStartsWith (body.model.getD "") mapping.sourceModel = true <;>
    simp [routeDecision, hu, h]

/-- Witness for C2: the spec's own example, `"claude-haiku-4-5-20251001"`
matches source model `"claude-haiku-4-5"` (with a query string on the URL). -/
theorem routing_prefix_iff_witness :
    routeDecision { sourceModel := "claude-haiku-4-5", targetModel := "gemini" }
      "POST" "/v1/messages?beta=true"
      (some { model := some "claude-haiku-4-5-20251001" }) = .intercept :=
  (routing_prefix_iff { sourceModel := "claude-haiku-4-5", targetModel := "gemini" }
    "POST" "/v1/messages?beta=true" { model := some "claude-haiku-4-5-20251001" }
    rfl (by decide)).1.mpr (by decide)

/-- C9 counterexample: a numeric `Retry-After` header with value `0` is
ignored by the code (it requires a positive value), so the computed delay is
the 10 s fallback rather than the header's 0 seconds. -/
theorem retry_delay_zero_header :
    parseRetryDelay "" (some "0") = 10000 ∧ jsParseInt "0" = some 0 :=
  ⟨rfl, rfl⟩

/-- C9 (amended): the retry delay is the header value in seconds when the
header parses (`parseInt`) to a positive number; otherwise — the header being
absent, unparseable, or parsing to a non-positive number — the first
case-insensitive match of `(reset|retry)\s+after\s+(\d+)\s*s` in the body;
otherwise 10 seconds. -/
theorem retry_delay_spec :
    (∀ (body h : String) (secs : Int), jsParseInt h = some secs → 0 < secs →
       parseRetryDelay body (some h) = secs.toNat * 1000) ∧
    (∀ (body h : String) (n : Nat),
       (jsParseInt h = none ∨ ∃ secs, jsParseInt h = some secs ∧ secs ≤ 0) →
       firstRetryMatch body.toList = some n →
       parseRetryDelay body (some h) = n * 1000) ∧
    (∀ (body : String) (n : Nat), firstRetryMatch body.toList = some n →
       parseRetryDelay body none = n * 1000) ∧
    (∀ (body h : String),
       (jsParseInt h = none ∨ ∃ secs, jsParseInt h = some secs ∧ secs ≤ 0) →
       firstRetryMatch body.toList = none →
       parseRetryDelay body (some h) = 10000) ∧
    (∀ body : String, firstRetryMatch body.toList = none →
       parseRetryDelay body none = 10000) := by
  refine ⟨?_, ?_, ?_, ?_, ?_⟩
  · intro body h secs hp hpos
    have hne : h ≠ "" := by
      intro he
      subst he
      simp [show jsParseInt "" = none from rfl] at hp
    simp [parseRetryDelay, hne, hp, hpos]
  · intro body h n hp hm
    simp only [String.toList] at hm
    rcases hp with hp | ⟨secs, hp, hle⟩
    · by_cases hne : h = "" <;> simp [parseRetryDelay, hne, hp, hm, DEFAULT_RETRY_DELAY]
    · have hne : h ≠ "" := by
        intro he
        subst he
        simp [show jsParseInt "" = none from rfl] at hp
      simp [parseRetryDelay, hne, hp, show ¬ (0 : Int) < secs from by omega, hm,
        DEFAULT_RETRY_DELAY]
  · intro body n hm
    simp only [String.toList] at hm
    simp [parseRetryDelay, hm, DEFAULT_RETRY_DELAY]
  · intro body h hp hm
    simp only [String.toList] at hm
    rcases hp with hp | ⟨secs, hp, hle⟩
    · by_cases hne : h = "" <;> simp [parseRetryDelay, hne, hp, hm, DEFAULT_RETRY_DELAY]
    · have hne : h ≠ "" := by
        intro he
        subst he
        simp [show jsParseInt "" = none from rfl] at hp
      simp [parseRetryDelay, hne, hp, show ¬ (0 : Int) < secs from by omega, hm,
        DEFAULT_RETRY_DELAY]
  · intro body hm
    simp only [String.toList] at hm
    simp [parseRetryDelay, hm, DEFAULT_RETRY_DELAY]

/-- Witness for C9: a numeric header of 30 gives 30 s; the body
`"reset after 46s"` gives 46 s when the header is absent; a header parsing
to the non-positive `0` is ignored in favour of the body match. -/
theorem retry_delay_spec_witness :
    parseRetryDelay "" (some "30") = 30000 ∧
    parseRetryDelay "Rate limit will reset after 46s." none = 46000 ∧
    parseRetryDelay "retry after 5s" (some "0") = 5000 :=
  ⟨retry_delay_spec.1 "" "30" 30 (by decide) (by decide),
   retry_delay_spec.2.2.1 "Rate limit will reset after 46s." 46 (by decide),
   retry_delay_spec.2.1 "retry after 5s" "0" 5
     (Or.inr ⟨0, by decide, by decide⟩) (by decide)⟩

/-- Keys surviving a non-`properties` cleaning pass all come from the
whitelist. -/
theorem cleanFields_keys_allowed : ∀ (fs : JsonO) (d : Nat) (k : String),
    k ∈ (cleanFields fs false d).keys → k ∈ GEMINI_ALLOWED_SCHEMA_KEYS
  | .nil, d, k => by simp [cleanFields, JsonO.keys]
  | .cons k0 v tl, d, k => by
    by_cases hk : GEMINI_ALLOWED_SCHEMA_KEYS.contains k0 = true
    · intro h
      simp only [cleanFields, hk, Bool.not_true, Bool.not_false, Bool.true_and,
        Bool.and_false, if_neg, Bool.false_eq_true, not_false_iff, JsonO.keys,
        List.mem_cons] at h
      rcases h with h | h
      · subst h
        simpa using hk
      · exact cleanFields_keys_allowed tl d k h
    · intro h
      simp only [cleanFields, hk, Bool.not_false, Bool.true_and] at h
      rw [if_pos (by simp [hk])] at h
      exact cleanFields_keys_allowed tl d k h
  termination_by fs => sizeOf fs

/-- Cleaning in `properties` mode keeps every key, in order. -/
theorem cleanFields_keys_props : ∀ (fs : JsonO) (d : Nat),
    (cleanFields fs true d).keys = fs.keys
  | .nil, _ => rfl
  | .cons k v tl, d => by
    simp [cleanFields, JsonO.keys, cleanFields_keys_props tl d]

/-- C4: `clean_schema(s)` has no top-level keys outside the allow-list
(first conjunct), keys directly inside any `properties` map are preserved
unchanged (second conjunct: in property-map mode all keys survive in order),
and the S4 example maps as specified (third conjunct). -/
theorem cleanSchema_whitelist :
    (∀ (s : Json) (fs : JsonO), cleanSchema s false 0 = .obj fs →
       ∀ k ∈ fs.keys, k ∈ GEMINI_ALLOWED_SCHEMA_KEYS) ∧
    (∀ (fs : JsonO) (d : Nat),
       ∃ gs, cleanSchema (.obj fs) true d = .obj gs ∧ gs.keys = fs.keys) ∧
    cleanSchema s4Input false 0 = s4Output := by
  refine ⟨?_, ?_, rfl⟩
  · intro s fs h k hk
    cases s with
    | null => simp [cleanSchema] at h
    | bool b => simp [cleanSchema] at h
    | num n => simp [cleanSchema] at h
    | str s => simp [cleanSchema] at h
    | arr xs => simp [cleanSchema, MAX_SCHEMA_DEPTH] at h
    | obj fs0 =>
      have h2 : cleanFields fs0 false 0 = fs := by
        simpa [cleanSchema, MAX_SCHEMA_DEPTH] using h
      rw [← h2] at hk
      exact cleanFields_keys_allowed fs0 0 k hk
  · intro fs d
    by_cases hd : d > MAX_SCHEMA_DEPTH
    · exact ⟨fs, by simp [cleanSchema, hd], rfl⟩
    · exact ⟨cleanFields fs true d, by simp [cleanSchema, hd], cleanFields_keys_props fs d⟩

/-- Witness for C4: applying the whitelist conjunct at a concrete object. -/
theorem cleanSchema_whitelist_witness : "type" ∈ GEMINI_ALLOWED_SCHEMA_KEYS :=
  cleanSchema_whitelist.1 (.obj (.cons "type" (.str "x") .nil))
    (.cons "type" (.str "x") .nil) rfl "type" (by simp [JsonO.keys])

/-- Cleaning preserves being an array/object (the source returns the same
constructor, possibly unchanged at the depth bound). -/
theorem isObjLike_cleanSchema (j : Json) (pm : Bool) (d : Nat) :
    isObjLike (cleanSchema j pm d) = isObjLike j := by
  cases j <;> by_cases hd : d > MAX_SCHEMA_DEPTH <;> simp [cleanSchema, hd, isObjLike]

mutual

/-- C10: `clean_schema` is idempotent, including under the recursion-depth
bound, inside arrays, and inside `properties` maps (for every starting mode
and depth). -/
theorem cleanSchema_idem : ∀ (j : Json) (pm : Bool) (d : Nat),
    cleanSchema (cleanSchema j pm d) pm d = cleanSchema j pm d
  | .null, _, _ => rfl
  | .bool b, _, _ => rfl
  | .num n, _, _ => rfl
  | .str s, _, _ => rfl
  | .arr xs, pm, d => by
    by_cases hd : d > MAX_SCHEMA_DEPTH
    · simp [cleanSchema, hd]
    · simp [cleanSchema, hd, cleanArr_idem xs d]
  | .obj fs, pm, d => by
    by_cases hd : d > MAX_SCHEMA_DEPTH
    · simp [cleanSchema, hd]
    · simp [cleanSchema, hd, cleanFields_idem fs pm d]

/-- Idempotence of the array pass of `clean_schema`. -/
theorem cleanArr_idem : ∀ (xs : JsonA) (d : Nat),
    cleanArr (cleanArr xs d) d = cleanArr xs d
  | .nil, _ => rfl
  | .cons v tl, d => by
    by_cases hv : isObjLike v = true
    · simp [cleanArr, hv, isObjLike_cleanSchema, cleanSchema_idem v false (d + 1),
        cleanArr_idem tl d]
    · simp [cleanArr, hv, isObjLike_cleanSchema, cleanArr_idem tl d]

/-- Idempotence of the object pass of `clean_schema`. -/
theorem cleanFields_idem : ∀ (fs : JsonO) (pm : Bool) (d : Nat),
    cleanFields (cleanFields fs pm d) pm d = cleanFields fs pm d
  | .nil, _, _ => rfl
  | .cons k v tl, pm, d => by
    by_cases hk : pm = false ∧ k ∉ GEMINI_ALLOWED_SCHEMA_KEYS
    · obtain ⟨hpm, hnk⟩ := hk
      subst hpm
      simp [cleanFields, hnk, cleanFields_idem tl false d]
    · by_cases hv : isObjLike v = true
      · simp [cleanFields, hk, hv, isObjLike_cleanSchema,
          cleanSchema_idem v (k == "properties") (d + 1), cleanFields_idem tl pm d]
      · simp [cleanFields, hk, hv, isObjLike_cleanSchema, cleanFields_idem tl pm d]

end

/-- C8 counterexample: an assistant message consisting only of thinking
blocks is returned unchanged by `strip_thinking_blocks` — its thinking block
is not removed, refuting the claim that every thinking block is removed from
every assistant array-content message. -/
theorem strip_thinking_all_thinking_kept :
    stripThinkingBlocks exC8req = exC8req ∧
      (stripThinkingBlocks exC8req).messages.map thinkCount = [1] :=
  ⟨rfl, rfl⟩

/-- C8 (amended): `strip_thinking_blocks` removes every thinking block from
every assistant message whose array content contains at least one
non-thinking block (keeping the remaining blocks in order); an assistant
message whose blocks are all thinking (in particular an empty one) is
returned unchanged, as are non-assistant and string-content messages and
every other request field. -/
theorem strip_thinking_spec (body : AnthropicRequest) :
    ({ stripThinkingBlocks body with messages := body.messages } = body) ∧
    (stripThinkingBlocks body).messages.length = body.messages.length ∧
    (∀ (i : Nat) (m : AnthropicMessage), body.messages[i]? = some m →
      ((m.role ≠ "assistant" ∨ (∃ s, m.content = .inl s)) →
         (stripThinkingBlocks body).messages[i]? = some m) ∧
      (∀ bs, m.role = "assistant" → m.content = .inr bs →
        (((bs.filter fun b => b.ty != "thinking").length = 0 →
            (stripThinkingBlocks body).messages[i]? = some m) ∧
         (0 < (bs.filter fun b => b.ty != "thinking").length →
            (stripThinkingBlocks body).messages[i]? =
              some { m with content := .inr (bs.filter fun b => b.ty != "thinking") } ∧
            (∀ b ∈ bs.filter (fun b => b.ty != "thinking"), ¬ b.ty = "thinking") ∧
            (bs.filter fun b => b.ty != "thinking").Sublist bs)))) := by
  refine ⟨rfl, by simp [stripThinkingBlocks], ?_⟩
  intro i m hm
  have hidx : (stripThinkingBlocks body).messages[i]? = some (stripMsg m) := by
    simp [stripThinkingBlocks, List.getElem?_map, hm]
  constructor
  · intro h
    rw [hidx]
    rcases h with h | ⟨s, h⟩
    · simp [stripMsg, h]
    · rcases hr : decide (m.role ≠ "assistant") with _ | _
      · simp at hr
        simp [stripMsg, hr, h]
      · simp at hr
        simp [stripMsg, hr, h]
  · intro bs hrole hcont
    constructor
    · intro hlen
      rw [hidx]
      simp [stripMsg, hrole, hcont, hlen]
    · intro hlen
      refine ⟨?_, ?_, List.filter_sublist _⟩
      · rw [hidx]
        have : ¬ (bs.filter fun b => b.ty != "thinking").length = 0 := by omega
        simp [stripMsg, hrole, hcont, this]
      · intro b hb
        have := List.of_mem_filter hb
        simpa using this

/-- Witness for C8: a thinking block beside a text block is removed and the
text block is kept. -/
theorem strip_thinking_spec_witness :
    (stripThinkingBlocks exC8breq).messages[0]? =
      some { role := "assistant",
             content := .inr (exC8blocks.filter fun b => b.ty != "thinking") } := by
  have h := (strip_thinking_spec exC8breq).2.2 0
    { role := "assistant", content := .inr exC8blocks } rfl
  exact ((h.2 exC8blocks rfl rfl).2 (by decide)).1

/-- C3 counterexample: a text block between the signed thinking block and
the tool_use block clears `pendingThoughtSignature` (the source's `text`
case resets it), so the produced functionCall part carries no
`thoughtSignature` even though the thinking block's signature was present —
refuting "regardless of which other blocks lie between". -/
theorem thinking_signature_cleared_by_text :
    (anthropicToGemini exC3req).contents =
      [{ role := "model",
         parts := [{ text := some "think", thought := some true },
                   { text := some "hello" },
                   { functionCall := some { name := some "Read", args := .obj .nil } }] }] ∧
    (∀ c ∈ (anthropicToGemini exC3req).contents, ∀ p ∈ c.parts,
       p.thoughtSignature = none) :=
  ⟨by decide, by decide⟩

/-- A block of inert type (not text/thinking/tool_use) emits parts that do
not depend on the pending signature and leaves the pending signature
unchanged. -/
theorem convertBlock_inert (tm : List (String × String)) (b : ABlock)
    (pending : Option String) (h : inertBlock b = true) :
    convertBlock tm b pending = ((convertBlock tm b none).1, pending) := by
  simp only [inertBlock, Bool.and_eq_true, bne_iff_ne, ne_eq] at h
  obtain ⟨⟨h1, h2⟩, h3⟩ := h
  by_cases h4 : b.ty = "tool_result"
  · simp [convertBlock, h1, h2, h3, h4]
  · by_cases h5 : b.ty = "image"
    · simp [convertBlock, h1, h2, h3, h4, h5]
    · simp [convertBlock, h1, h2, h3, h4, h5]

/-- A run of inert blocks contributes its parts and passes the pending
signature through. -/
theorem convertBlocksAux_append_inert (tm : List (String × String)) :
    ∀ (mid l2 : List ABlock) (pending : Option String),
    (∀ b ∈ mid, inertBlock b = true) →
    convertBlocksAux tm (mid ++ l2) pending =
      (mid.map fun b => (convertBlock tm b none).1).flatten ++
        convertBlocksAux tm l2 pending := by
  intro mid
  induction mid with
  | nil => simp [convertBlocksAux]
  | cons b tl ih =>
    intro l2 pending h
    have hb := h b (by simp)
    have htl : ∀ x ∈ tl, inertBlock x = true := fun x hx => h x (by simp [hx])
    simp only [List.cons_append, convertBlocksAux,
      convertBlock_inert tm b pending hb]
    simp [ih l2 pending htl]

/-- C3 (amended): a thinking block's nonempty signature is attached as
`thoughtSignature` on the functionCall produced from the next tool_use block
of the message, and then cleared, provided the blocks in between are neither
text nor thinking blocks (a text block clears the pending signature and a
thinking block overwrites it). -/
theorem thinking_signature_attached (tm : List (String × String)) (th sig : String)
    (mid rest : List ABlock) (tb : ABlock) (pending0 : Option String)
    (hsig : sig ≠ "") (hmid : ∀ b ∈ mid, inertBlock b = true)
    (htb : tb.ty = "tool_use") :
    convertBlocksAux tm (mkThinkingBlock th (some sig) :: (mid ++ tb :: rest)) pending0 =
      (if th ≠ "" then [{ text := some th, thought := some true }] else []) ++
      ((mid.map fun b => (convertBlock tm b none).1).flatten ++
       ({ functionCall := some { name := tb.name, args := jsOrEmptyObj tb.input },
          thoughtSignature := some sig } :: convertBlocksAux tm rest none)) := by
  have hthink : convertBlock tm (mkThinkingBlock th (some sig)) pending0 =
      ((if th ≠ "" then [{ text := some th, thought := some true }] else []), some sig) := by
    by_cases hth : th = "" <;>
      simp [convertBlock, mkThinkingBlock, ABlock.ty, ABlock.thinking, ABlock.signature, hth]
  have htool : convertBlock tm tb (some sig) =
      ([{ functionCall := some { name := tb.name, args := jsOrEmptyObj tb.input },
          thoughtSignature := some sig }], none) := by
    simp [convertBlock, htb, hsig]
  simp only [convertBlocksAux, hthink]
  rw [convertBlocksAux_append_inert tm mid (tb :: rest) (some sig) hmid]
  simp only [convertBlocksAux, htool]
  simp

/-- Witness for C3 (amended): an interposed tool_result block does not
disturb the signature attachment. -/
theorem thinking_signature_attached_witness :
    convertBlocksAux [] (mkThinkingBlock "t" (some "s") ::
        ([mkToolResultBlock "x" none] ++ mkToolUseBlock "id1" "Read" none :: [])) none =
      (if ("t" : String) ≠ "" then [{ text := some "t", thought := some true }] else []) ++
      (([mkToolResultBlock "x" none].map fun b => (convertBlock [] b none).1).flatten ++
       ({ functionCall := some { name := (mkToolUseBlock "id1" "Read" none).name, args := jsOrEmptyObj (mkToolUseBlock "id1" "Read" none).input },
          thoughtSignature := some "s" } :: convertBlocksAux [] [] none)) :=
  thinking_signature_attached [] "t" "s" [mkToolResultBlock "x" none] []
    (mkToolUseBlock "id1" "Read" none) none (by decide) (by decide) rfl


/-- Membership in the collected pairs of `registerBlocks`, characterised by
the blocks that produce them. -/
theorem mem_registerBlocks : ∀ (bs : List ABlock) (tid n : String),
    (tid, n) ∈ registerBlocks bs ↔
      ∃ blk ∈ bs, blk.ty = "tool_use" ∧ blk.id = some tid ∧ blk.name = some n ∧
        tid ≠ "" ∧ n ≠ "" := by
  intro bs tid n
  induction bs with
  | nil => simp [registerBlocks]
  | cons b rest ih =>
    obtain ⟨ty, tx, th, sg, bid, bnm, btu, binp, bcont, bsrc⟩ := b
    by_cases hkeep : ty = "tool_use" ∧ ∃ i nm, bid = some i ∧ bnm = some nm ∧ i ≠ "" ∧ nm ≠ ""
    · obtain ⟨hty, i, nm, hbid, hbnm, hi, hnm⟩ := hkeep
      subst hty; subst hbid; subst hbnm
      have heq : registerBlocks
          (ABlock.mk "tool_use" tx th sg (some i) (some nm) btu binp bcont bsrc :: rest) =
          (i, nm) :: registerBlocks rest := by
        simp [registerBlocks, ABlock.ty, ABlock.id, ABlock.name, hi, hnm]
      rw [heq]
      constructor
      · intro h
        rcases List.mem_cons.mp h with heq2 | hrest
        · have h1 : tid = i := congrArg Prod.fst heq2
          have h2 : n = nm := congrArg Prod.snd heq2
          subst h1; subst h2
          exact ⟨ABlock.mk "tool_use" tx th sg (some tid) (some n) btu binp bcont bsrc,
            by simp, rfl, rfl, rfl, hi, hnm⟩
        · obtain ⟨blk, hm, hp⟩ := ih.mp hrest
          exact ⟨blk, by simp [hm], hp⟩
      · rintro ⟨blk, hm, hp⟩
        rcases List.mem_cons.mp hm with heq2 | hrest
        · subst heq2
          obtain ⟨hp1, hp2, hp3, hp4, hp5⟩ := hp
          simp only [ABlock.id] at hp2
          simp only [ABlock.name] at hp3
          injection hp2 with hp2
          injection hp3 with hp3
          subst hp2; subst hp3
          exact List.mem_cons_self _ _
        · exact List.mem_cons_of_mem _ (ih.mpr ⟨blk, hrest, hp⟩)
    · have heq : registerBlocks
          (ABlock.mk ty tx th sg bid bnm btu binp bcont bsrc :: rest) =
          registerBlocks rest := by
        by_cases hty : ty = "tool_use"
        · subst hty
          cases bid with
          | none => simp [registerBlocks, ABlock.ty, ABlock.id, ABlock.name]
          | some i =>
            cases bnm with
            | none => simp [registerBlocks, ABlock.ty, ABlock.id, ABlock.name]
            | some nm =>
              have hin : ¬ (i ≠ "" ∧ nm ≠ "") := by
                intro hc
                exact hkeep ⟨rfl, i, nm, rfl, rfl, hc.1, hc.2⟩
              simp [registerBlocks, ABlock.ty, ABlock.id, ABlock.name, hin]
        · simp [registerBlocks, ABlock.ty, hty]
      rw [heq, ih]
      constructor
      · rintro ⟨blk, hm, hp⟩
        exact ⟨blk, by simp [hm], hp⟩
      · rintro ⟨blk, hm, hp⟩
        rcases List.mem_cons.mp hm with heq2 | hrest
        · subst heq2
          obtain ⟨hp1, hp2, hp3, hp4, hp5⟩ := hp
          simp only [ABlock.ty] at hp1
          simp only [ABlock.id] at hp2
          simp only [ABlock.name] at hp3
          exact absurd ⟨hp1, tid, n, hp2, hp3, hp4, hp5⟩ hkeep
        · exact ⟨blk, hrest, hp⟩

/-- The Bool `registeredIn` unfolded to its existential meaning. -/
theorem registeredIn_iff (msgs : List AnthropicMessage) (tid n : String) :
    registeredIn msgs tid n = true ↔
      ∃ m ∈ msgs, m.role = "assistant" ∧
        ∃ blk ∈ normalizeContent m.content,
          blk.ty = "tool_use" ∧ blk.id = some tid ∧ blk.name = some n ∧
            tid ≠ "" ∧ n ≠ "" := by
  simp [registeredIn, List.any_eq_true, Bool.and_eq_true, beq_iff_eq, bne_iff_ne,
    and_assoc]

/-- The `tool_use_id → name` map stores exactly the pairs registered by the
history. -/
theorem mem_buildToolUseIdMap : ∀ (msgs : List AnthropicMessage) (tid n : String),
    (tid, n) ∈ buildToolUseIdMap msgs ↔
      ∃ m ∈ msgs, m.role = "assistant" ∧
        ∃ blk ∈ normalizeContent m.content,
          blk.ty = "tool_use" ∧ blk.id = some tid ∧ blk.name = some n ∧
            tid ≠ "" ∧ n ≠ "" := by
  intro msgs tid n
  induction msgs with
  | nil => simp [buildToolUseIdMap]
  | cons m rest ih =>
    rw [buildToolUseIdMap]
    by_cases hrole : m.role = "assistant"
    · rw [if_pos hrole]
      constructor
      · intro h
        rcases List.mem_append.mp h with hh | ht
        · obtain ⟨blk, hblk, hp⟩ := (mem_registerBlocks _ tid n).mp hh
          exact ⟨m, by simp, hrole, blk, hblk, hp⟩
        · obtain ⟨m2, hm2, hp2⟩ := ih.mp ht
          exact ⟨m2, by simp [hm2], hp2⟩
      · rintro ⟨m2, hm2, hrole2, blk, hblk, hp⟩
        rcases List.mem_cons.mp hm2 with heq | hrest
        · subst heq
          exact List.mem_append.mpr (Or.inl ((mem_registerBlocks _ tid n).mpr ⟨blk, hblk, hp⟩))
        · exact List.mem_append.mpr (Or.inr (ih.mpr ⟨m2, hrest, hrole2, blk, hblk, hp⟩))
    · rw [if_neg hrole]
      simp only [List.nil_append, ih]
      constructor
      · rintro ⟨m2, hm2, hp2⟩
        exact ⟨m2, by simp [hm2], hp2⟩
      · rintro ⟨m2, hm2, hrole2, hp⟩
        rcases List.mem_cons.mp hm2 with heq | hrest
        · subst heq
          exact absurd hrole2 hrole
        · exact ⟨m2, hrest, hrole2, hp⟩

/-- A successful `Map.get` returns a stored pair. -/
theorem mapGet_mem (m : List (String × String)) (tid n : String)
    (h : mapGet m tid = some n) : (tid, n) ∈ m := by
  unfold mapGet at h
  cases hf : m.reverse.find? (fun p => p.1 == tid) with
  | none =>
    rw [hf] at h
    simp at h
  | some p =>
    rw [hf] at h
    have hmem := List.mem_of_find?_eq_some hf
    have hpred := List.find?_some hf
    obtain ⟨p1, p2⟩ := p
    simp only [beq_iff_eq] at hpred
    simp at h
    subst hpred
    subst h
    exact List.mem_reverse.mp hmem

/-- `Map.get` succeeds whenever some pair with the key is stored. -/
theorem mapGet_total (m : List (String × String)) (tid n : String)
    (h : (tid, n) ∈ m) : ∃ n2, mapGet m tid = some n2 := by
  unfold mapGet
  cases hf : m.reverse.find? (fun p => p.1 == tid) with
  | some p => exact ⟨p.2, rfl⟩
  | none =>
    exfalso
    have := List.find?_eq_none.mp hf (tid, n) (List.mem_reverse.mpr h)
    simp at this

/-- C6 (amended): every `tool_result` block is translated into exactly one
`functionResponse` part (the request never fails) whose name is looked up in
the tool-use-id map; when some assistant `tool_use` block with truthy
(nonempty) id and name matches the `tool_use_id`, the produced name is the
registered name of such a block; when none matches, the produced name is the
sentinel `"unknown_tool"`. -/
theorem tool_linkage (msgs : List AnthropicMessage) (b : ABlock) (pending : Option String)
    (hb : b.ty = "tool_result") :
    (convertBlock (buildToolUseIdMap msgs) b pending =
       ([{ functionResponse := some { name := lookupToolName (buildToolUseIdMap msgs) b.tool_use_id, response := .obj (.cons "result" (.str (extractToolResultContent b)) .nil) } }], pending)) ∧
    (∀ tid, b.tool_use_id = some tid →
       ((∃ n, registeredIn msgs tid n = true) →
          ∃ n, registeredIn msgs tid n = true ∧
            lookupToolName (buildToolUseIdMap msgs) (some tid) = n) ∧
       ((∀ n, ¬ registeredIn msgs tid n = true) →
          lookupToolName (buildToolUseIdMap msgs) (some tid) = "unknown_tool")) := by
  constructor
  · simp [convertBlock, hb]
  · intro tid htid
    constructor
    · rintro ⟨n0, hreg⟩
      have hmem0 := (mem_buildToolUseIdMap msgs tid n0).mpr
        ((registeredIn_iff msgs tid n0).mp hreg)
      obtain ⟨n2, hm2⟩ := mapGet_total _ tid n0 hmem0
      have hx := (mem_buildToolUseIdMap msgs tid n2).mp (mapGet_mem _ tid n2 hm2)
      have hne : n2 ≠ "" := by
        obtain ⟨m2, _, _, blk, _, _, _, _, _, hne⟩ := hx
        exact hne
      exact ⟨n2, (registeredIn_iff msgs tid n2).mpr hx,
        by simp [lookupToolName, hm2, hne]⟩
    · intro hnone
      cases hmg : mapGet (buildToolUseIdMap msgs) tid with
      | some n2 =>
        exact absurd ((registeredIn_iff msgs tid n2).mpr
          ((mem_buildToolUseIdMap msgs tid n2).mp (mapGet_mem _ tid n2 hmg))) (hnone n2)
      | none => simp [lookupToolName, hmg]

/-- Witness for C6 (amended): the S3 history links `toolu_123` to `Read`,
and an unregistered id yields `unknown_tool`. -/
theorem tool_linkage_witness :
    (∃ n, registeredIn exS3msgs "toolu_123" n = true ∧
       lookupToolName (buildToolUseIdMap exS3msgs) (some "toolu_123") = n) ∧
    lookupToolName (buildToolUseIdMap exS3msgs) (some "ghost") = "unknown_tool" :=
  ⟨((tool_linkage exS3msgs (mkToolResultBlock "toolu_123" (some (.inl "file"))) none rfl).2
      "toolu_123" rfl).1 ⟨"Read", by decide⟩,
   ((tool_linkage exS3msgs (mkToolResultBlock "ghost" (some (.inl "file"))) none rfl).2
      "ghost" rfl).2 (by
        intro n hcon
        obtain ⟨m2, hm2, hrole, blk, hblk, hty, hid, _⟩ := (registeredIn_iff _ _ _).mp hcon
        simp only [exS3msgs, List.mem_cons, List.not_mem_nil, or_false] at hm2
        rcases hm2 with h | h | h <;> subst h
        · simp at hrole
        · simp only [normalizeContent, List.mem_singleton] at hblk
          subst hblk
          simp [mkToolUseBlock, ABlock.id] at hid
        · simp at hrole)⟩

/-- C6 counterexample: a `tool_use` block with empty id `""` and a
`tool_result` whose `tool_use_id` is the same empty string: the
`tool_use_id` equals the id of an assistant `tool_use` block of the history,
yet the produced `functionResponse.name` is `"unknown_tool"`, because the
source only registers truthy (nonempty) ids and names. -/
theorem tool_linkage_empty_id :
    (anthropicToGemini exC6req).contents =
      [{ role := "model",
         parts := [{ functionCall := some { name := some "Read", args := .obj .nil } }] },
       { role := "user",
         parts := [{ functionResponse := some { name := "unknown_tool", response := .obj (.cons "result" (.str "file") .nil) } }] }] ∧
    (mkToolUseBlock "" "Read" none).id = some "" ∧
    (mkToolResultBlock "" (some (.inl "file"))).tool_use_id = some "" :=
  ⟨by decide, rfl, rfl⟩

/-- A list with a known last element is its `dropLast` plus that element. -/
theorem dropLast_getLast?_eq {α : Type} : ∀ (l : List α) (a : α),
    l.getLast? = some a → l.dropLast ++ [a] = l := by
  intro l
  induction l with
  | nil => intro a h; simp at h
  | cons x xs ih =>
    intro a h
    cases xs with
    | nil =>
      simp only [List.getLast?_singleton, Option.some.injEq] at h
      subst h
      simp
    | cons y ys =>
      have h2 : (y :: ys).getLast? = some a := by
        rwa [List.getLast?_cons_cons] at h
      have h3 := ih a h2
      simp only [List.dropLast_cons₂, List.cons_append, h3]

/-- `appendContent` preserves the no-adjacent-equal-roles chain. -/
theorem appendContent_chain (acc : List GeminiContent) (role : String)
    (parts : List GeminiPart)
    (h : List.Chain' (fun a b => a.role ≠ b.role) acc) :
    List.Chain' (fun a b => a.role ≠ b.role) (appendContent acc role parts) := by
  unfold appendContent
  by_cases hp : parts.length = 0
  · simpa [hp] using h
  · rw [if_neg hp]
    cases hlast : acc.getLast? with
    | none =>
      simp only [List.getLast?_eq_none_iff] at hlast
      subst hlast
      simp
    | some last =>
      show List.Chain' (fun a b => a.role ≠ b.role)
        (if last.role = role then
          acc.dropLast ++ [{ role := last.role, parts := last.parts ++ parts }]
        else acc ++ [{ role := role, parts := parts }])
      by_cases hrole : last.role = role
      · rw [if_pos hrole]
        have hdec := dropLast_getLast?_eq acc last hlast
        rw [← hdec] at h
        rcases List.chain'_append.mp h with ⟨h1, h2, h3⟩
        apply List.chain'_append.mpr
        refine ⟨h1, List.chain'_singleton _, ?_⟩
        intro x hx y hy
        simp only [List.head?_cons, Option.mem_def, Option.some.injEq] at hy
        subst hy
        exact h3 x hx last (by simp)
      · rw [if_neg hrole]
        apply List.chain'_append.mpr
        refine ⟨h, List.chain'_singleton _, ?_⟩
        intro x hx y hy
        simp only [List.head?_cons, Option.mem_def, Option.some.injEq] at hy
        subst hy
        have hxl : x = last := by
          rw [hlast] at hx
          have := hx
          simp only [Option.mem_def, Option.some.injEq] at this
          exact this.symm
        subst hxl
        simpa using fun hc => hrole hc

/-- The message fold preserves the chain invariant. -/
theorem buildContents_chain (tm : List (String × String)) :
    ∀ (msgs : List AnthropicMessage) (acc : List GeminiContent),
    List.Chain' (fun a b => a.role ≠ b.role) acc →
    List.Chain' (fun a b => a.role ≠ b.role) (buildContents tm msgs acc) := by
  intro msgs
  induction msgs with
  | nil => intro acc h; simpa [buildContents] using h
  | cons m rest ih =>
    intro acc h
    rw [buildContents]
    exact ih _ (appendContent_chain acc (geminiRole m.role)
      (convertBlocksAux tm (normalizeContent m.content) none) h)

/-- C7: in `anthropic_to_gemini(r).contents` no two adjacent entries share a
role — consecutive messages mapping to the same Gemini role are merged. -/
theorem role_merging (r : AnthropicRequest) :
    List.Chain' (fun a b => a.role ≠ b.role) (anthropicToGemini r).contents :=
  buildContents_chain (buildToolUseIdMap r.messages) r.messages [] (by simp)

/-- Digit characters for values below ten are decimal digits. -/
theorem digitChar_isDigit (d : Nat) (h : d < 10) : (digitChar d).isDigit = true := by
  interval_cases d <;> decide

/-- The numeric value of a digit character round-trips. -/
theorem digitChar_toNat (d : Nat) (h : d < 10) : (digitChar d).toNat - 48 = d := by
  interval_cases d <;> decide

/-- The printed digits of a natural are independent of sufficient fuel. -/
theorem natCharsF_fuel : ∀ (f1 f2 n : Nat), n < f1 → n < f2 →
    natCharsF f1 n = natCharsF f2 n := by
  intro f1
  induction f1 with
  | zero => intro f2 n h1; omega
  | succ f ih =>
    intro f2 n h1 h2
    cases f2 with
    | zero => omega
    | succ f2 =>
      rw [natCharsF, natCharsF]
      by_cases h10 : n < 10
      · simp [h10]
      · have hdiv : n / 10 < n := Nat.div_lt_self (by omega) (by omega)
        simp only [h10, if_false]
        rw [ih f2 (n / 10) (by omega) (by omega)]

/-- Recurrence satisfied by the decimal printer. -/
theorem natChars_unfold (n : Nat) :
    natChars n = if n < 10 then [digitChar n]
                 else natChars (n / 10) ++ [digitChar (n % 10)] := by
  rw [natChars, natCharsF]
  by_cases h10 : n < 10
  · simp [h10]
  · simp only [h10, if_false]
    rw [natCharsF_fuel n (n / 10 + 1) (n / 10) (by omega) (by omega)]
    rfl

/-- Every printed character of a natural numeral is a decimal digit. -/
theorem natChars_digits (n : Nat) : ∀ c ∈ natChars n, c.isDigit = true := by
  induction n using Nat.strong_induction_on with
  | _ n ih =>
    rw [natChars_unfold]
    by_cases h10 : n < 10
    · simp only [h10, if_true, List.mem_singleton]
      intro c hc; subst hc; exact digitChar_isDigit n h10
    · simp only [h10, if_false, List.mem_append, List.mem_singleton]
      intro c hc
      rcases hc with hc | hc
      · exact ih (n / 10) (Nat.div_lt_self (by omega) (by omega)) c hc
      · subst hc; exact digitChar_isDigit (n % 10) (Nat.mod_lt n (by omega))

/-- The decimal printer never yields an empty list. -/
theorem natChars_ne_nil (n : Nat) : natChars n ≠ [] := by
  rw [natChars_unfold]
  by_cases h10 : n < 10 <;> simp [h10]

/-- Folding the digit-accumulation step over a printed numeral recovers its value. -/
theorem natChars_foldl (n : Nat) : ∀ acc : Nat,
    (natChars n).foldl (fun a d => a * 10 + (d.toNat - 48)) acc
      = acc * 10 ^ (natChars n).length + n := by
  induction n using Nat.strong_induction_on with
  | _ n ih =>
    intro acc
    rw [natChars_unfold]
    by_cases h10 : n < 10
    · simp only [h10, if_true, List.foldl_cons, List.foldl_nil, List.length_singleton]
      rw [digitChar_toNat n h10]; ring
    · simp only [h10, if_false, List.foldl_append, List.foldl_cons, List.foldl_nil,
        List.length_append, List.length_singleton]
      rw [ih (n / 10) (Nat.div_lt_self (by omega) (by omega)) acc,
        digitChar_toNat (n % 10) (Nat.mod_lt n (by omega))]
      rw [pow_succ]
      ring_nf
      omega

/-- On a numeral-stable continuation, digit accumulation stops immediately. -/
theorem parseDigitsAux_stop : ∀ (rest : List Char) (acc : Nat), numSafe rest →
    parseDigitsAux rest acc = (acc, rest)
  | [], acc, _ => rfl
  | c :: r, acc, h => by
    obtain ⟨hd, _⟩ := h
    simp [parseDigitsAux, hd]

/-- Digit accumulation over an all-digit prefix folds the prefix into the
accumulator. -/
theorem parseDigitsAux_append : ∀ (ds rest : List Char) (acc : Nat),
    (∀ d ∈ ds, d.isDigit = true) →
    parseDigitsAux (ds ++ rest) acc =
      parseDigitsAux rest (ds.foldl (fun a d => a * 10 + (d.toNat - 48)) acc)
  | [], rest, acc, _ => rfl
  | d :: ds, rest, acc, h => by
    have hd : d.isDigit = true := h d (List.mem_cons_self d ds)
    have hds : ∀ x ∈ ds, x.isDigit = true := fun x hx => h x (List.mem_cons_of_mem d hx)
    simp only [List.cons_append, parseDigitsAux, hd, if_true, List.foldl_cons]
    exact parseDigitsAux_append ds rest (acc * 10 + (d.toNat - 48)) hds

/-- Parsing a printed natural numeral recovers the value and the continuation. -/
theorem parseNat_natChars (n : Nat) (rest : List Char) (h : numSafe rest) :
    parseNat (natChars n ++ rest) = some (n, rest) := by
  rcases he : natChars n with _ | ⟨c, cs⟩
  · exact absurd he (natChars_ne_nil n)
  · have hdigs := natChars_digits n
    rw [he] at hdigs
    have hc : c.isDigit = true := hdigs c (List.mem_cons_self c cs)
    have hcs : ∀ d ∈ cs, d.isDigit = true := fun d hd => hdigs d (List.mem_cons_of_mem c hd)
    have hv := natChars_foldl n 0
    rw [he] at hv
    simp only [List.foldl_cons, Nat.zero_mul, Nat.zero_add] at hv
    simp only [List.cons_append, parseNat, hc, if_true]
    rw [parseDigitsAux_append cs rest (c.toNat - 48) hcs, parseDigitsAux_stop rest _ h, hv]

/-- A numeral-stable continuation satisfies the parser's stop test. -/
theorem numStop_of_numSafe : ∀ (rest : List Char), numSafe rest → numStop rest = true
  | [], _ => rfl
  | c :: r, h => by
    obtain ⟨_, h1, h2, h3⟩ := h
    simp [numStop, h1, h2, h3]

/-- Dropping whitespace does nothing when the head is not whitespace. -/
theorem skipWs_cons_not (c : Char) (r : List Char) (h : isJsonWs c = false) :
    skipWs (c :: r) = c :: r := by
  simp [skipWs, List.dropWhile_cons, h]

/-- A decimal digit is not JSON whitespace and is none of the characters that
select a non-numeric branch of the value parser. -/
theorem digit_head_facts (c : Char) (h : c.isDigit = true) :
    isJsonWs c = false ∧ c ≠ 'n' ∧ c ≠ 't' ∧ c ≠ 'f' ∧ c ≠ '"' ∧ c ≠ '[' ∧
      c ≠ '\x7b' ∧ c ≠ '-' ∧ c ≠ ']' ∧ c ≠ '\x7d' ∧ c ≠ ',' := by
  refine ⟨?_, ?_, ?_, ?_, ?_, ?_, ?_, ?_, ?_, ?_, ?_⟩
  · cases hwc : isJsonWs c with
    | false => rfl
    | true =>
      have hws : ((c = ' ' ∨ c = '\x09') ∨ c = '\x0a') ∨ c = '\x0d' := by
        simpa [isJsonWs] using hwc
      rcases hws with ((h1 | h1) | h1) | h1 <;> (rw [h1] at h; exact absurd h (by decide))
  all_goals exact fun heq => absurd (heq ▸ h) (by decide)

/-- The value of a printed hexadecimal digit round-trips. -/
theorem hexVal_hexDigit (m : Nat) (h : m < 16) : hexVal (hexDigit m) = some m := by
  interval_cases m <;> decide

/-- `hexVal` on the zero digit. -/
theorem hexVal_zero : hexVal '0' = some 0 := by decide

/-- Parsing the escape of one character consumes exactly that character. -/
theorem parseStrBody_escChar (c : Char) (rest : List Char) :
    parseStrBody (escChar c ++ rest) = (parseStrBody rest).map (fun p => (c :: p.1, p.2)) := by
  by_cases h1 : c = '"'
  · subst h1; rw [parseStrBody.eq_def]; simp [escChar, escCode]
  by_cases h2 : c = '\\'
  · subst h2; rw [parseStrBody.eq_def]; simp [escChar, escCode]
  by_cases h3 : c = '\x08'
  · subst h3; rw [parseStrBody.eq_def]; simp [escChar, escCode]
  by_cases h4 : c = '\x09'
  · subst h4; rw [parseStrBody.eq_def]; simp [escChar, escCode]
  by_cases h5 : c = '\x0a'
  · subst h5; rw [parseStrBody.eq_def]; simp [escChar, escCode]
  by_cases h6 : c = '\x0c'
  · subst h6; rw [parseStrBody.eq_def]; simp [escChar, escCode]
  by_cases h7 : c = '\x0d'
  · subst h7; rw [parseStrBody.eq_def]; simp [escChar, escCode]
  by_cases h8 : c.toNat < 32
  · have ha : hexVal (hexDigit (c.toNat / 16)) = some (c.toNat / 16) :=
      hexVal_hexDigit _ (by omega)
    have hb : hexVal (hexDigit (c.toNat % 16)) = some (c.toNat % 16) :=
      hexVal_hexDigit _ (by omega)
    have harv : (((0 * 16 + 0) * 16 + c.toNat / 16) * 16 + c.toNat % 16) = c.toNat := by omega
    simp only [escChar, if_neg h1, if_neg h2, if_neg h3, if_neg h4, if_neg h5, if_neg h6,
      if_neg h7, if_pos h8, List.cons_append, List.nil_append]
    rw [parseStrBody.eq_def]
    simp only [ha, hb, hexVal_zero]
    have h16 : c.toNat / 16 * 16 + c.toNat % 16 = c.toNat := by omega
    simp [h16, Char.ofNat_toNat]
  · simp only [escChar, if_neg h1, if_neg h2, if_neg h3, if_neg h4, if_neg h5, if_neg h6,
      if_neg h7, if_neg h8, List.cons_append, List.nil_append]
    rw [parseStrBody.eq_def]
    simp only []
    rw [if_neg h1, if_neg h2]

/-- Parsing a fully escaped string body followed by the closing quote recovers
the original characters. -/
theorem parseStrBody_escape : ∀ (cs rest : List Char),
    parseStrBody ((cs.map escChar).flatten ++ '"' :: rest) = some (cs, rest)
  | [], rest => by
    rw [List.map_nil, List.flatten_nil, List.nil_append, parseStrBody.eq_def]
    simp
  | c :: cs, rest => by
    simp only [List.map_cons, List.flatten_cons, List.append_assoc]
    rw [parseStrBody_escChar, parseStrBody_escape cs rest]
    rfl

/-- Printed hexadecimal digits are never a newline. -/
theorem hexDigit_ne_nl (m : Nat) (h : m < 16) : hexDigit m ≠ '\x0a' := by
  interval_cases m <;> decide

/-- A character's escape never contains a raw newline. -/
theorem escChar_nonl (c : Char) : '\x0a' ∉ escChar c := by
  by_cases h1 : c = '"'
  · subst h1; decide
  by_cases h2 : c = '\\'
  · subst h2; decide
  by_cases h3 : c = '\x08'
  · subst h3; decide
  by_cases h4 : c = '\x09'
  · subst h4; decide
  by_cases h5 : c = '\x0a'
  · subst h5; decide
  by_cases h6 : c = '\x0c'
  · subst h6; decide
  by_cases h7 : c = '\x0d'
  · subst h7; decide
  by_cases h8 : c.toNat < 32
  · simp only [escChar, if_neg h1, if_neg h2, if_neg h3, if_neg h4, if_neg h5, if_neg h6,
      if_neg h7, if_pos h8]
    intro hm
    simp only [List.mem_cons, List.not_mem_nil, or_false] at hm
    rcases hm with h | h | h | h | h | h <;>
      first
        | exact absurd h.symm (by decide)
        | exact absurd h.symm (hexDigit_ne_nl _ (by omega))
  · simp only [escChar, if_neg h1, if_neg h2, if_neg h3, if_neg h4, if_neg h5, if_neg h6,
      if_neg h7, if_neg h8]
    intro hm
    simp only [List.mem_singleton] at hm
    exact h5 hm.symm

/-- Printed natural numerals never contain a newline. -/
theorem natChars_nonl (n : Nat) : '\x0a' ∉ natChars n := by
  intro hm
  have := natChars_digits n _ hm
  exact absurd this (by decide)

/-- Serialized string literals never contain a raw newline. -/
theorem serStr_nonl (s : String) : '\x0a' ∉ serStr s := by
  intro hm
  rw [serStr] at hm
  rcases List.mem_cons.mp hm with h | h
  · exact absurd h (by decide)
  · rcases List.mem_append.mp h with h | h
    · rcases List.mem_flatten.mp h with ⟨l, hl, hcl⟩
      rcases List.mem_map.mp hl with ⟨c, hcmem, hlc⟩
      subst hlc
      exact escChar_nonl c hcl
    · exact absurd (List.mem_singleton.mp h) (by decide)

mutual

/-- Serialized JSON values never contain a raw newline. -/
theorem serJ_nonl : ∀ (j : Json), '\x0a' ∉ serJ j
  | .null => by decide
  | .bool true => by decide
  | .bool false => by decide
  | .num n => by
    intro hm
    rw [serJ, intChars] at hm
    by_cases hn : n < 0
    · rw [if_pos hn] at hm
      rcases List.mem_cons.mp hm with h | h
      · exact absurd h (by decide)
      · exact natChars_nonl _ h
    · rw [if_neg hn] at hm
      exact natChars_nonl _ hm
  | .str s => serStr_nonl s
  | .arr xs => by
    intro hm
    rw [serJ] at hm
    rcases List.mem_cons.mp hm with h | h
    · exact absurd h (by decide)
    · rcases List.mem_append.mp h with h | h
      · exact serA_nonl xs h
      · exact absurd (List.mem_singleton.mp h) (by decide)
  | .obj fs => by
    intro hm
    rw [serJ] at hm
    rcases List.mem_cons.mp hm with h | h
    · exact absurd h (by decide)
    · rcases List.mem_append.mp h with h | h
      · exact serO_nonl fs h
      · exact absurd (List.mem_singleton.mp h) (by decide)

/-- Serialized JSON array bodies never contain a raw newline. -/
theorem serA_nonl : ∀ (xs : JsonA), '\x0a' ∉ serA xs
  | .nil => by decide
  | .cons x .nil => by
    intro hm; exact serJ_nonl x hm
  | .cons x (.cons y tl) => by
    intro hm
    rw [serA] at hm
    rcases List.mem_append.mp hm with h | h
    · exact serJ_nonl x h
    · rcases List.mem_cons.mp h with h | h
      · exact absurd h (by decide)
      · exact serA_nonl (.cons y tl) h

/-- Serialized JSON object bodies never contain a raw newline. -/
theorem serO_nonl : ∀ (fs : JsonO), '\x0a' ∉ serO fs
  | .nil => by decide
  | .cons k v .nil => by
    intro hm
    rw [serO] at hm
    rcases List.mem_append.mp hm with h | h
    · exact serStr_nonl k h
    · rcases List.mem_cons.mp h with h | h
      · exact absurd h (by decide)
      · exact serJ_nonl v h
  | .cons k v (.cons k2 v2 tl) => by
    intro hm
    rw [serO] at hm
    rcases List.mem_append.mp hm with h | h
    · rcases List.mem_append.mp h with h | h
      · exact serStr_nonl k h
      · rcases List.mem_cons.mp h with h | h
        · exact absurd h (by decide)
        · exact serJ_nonl v h
    · rcases List.mem_cons.mp h with h | h
      · exact absurd h (by decide)
      · exact serO_nonl (.cons k2 v2 tl) h

end

/-- Rebuilding a string from its characters is the identity. -/
theorem mk_toList (s : String) : String.mk s.toList = s := rfl

/-- Building block for numeral-stable continuations. -/
theorem numSafe_cons (c : Char) (r : List Char) (h1 : c.isDigit = false) (h2 : c ≠ '.')
    (h3 : c ≠ 'e') (h4 : c ≠ 'E') : numSafe (c :: r) := ⟨h1, h2, h3, h4⟩

/-- Every serialized JSON value starts with a character that is neither JSON
whitespace nor a closing bracket. -/
theorem serJ_head (j : Json) :
    ∃ c cs, serJ j = c :: cs ∧ isJsonWs c = false ∧ c ≠ ']' := by
  cases j with
  | null => exact ⟨'n', _, rfl, by decide, by decide⟩
  | bool b =>
    cases b
    · exact ⟨'f', _, rfl, by decide, by decide⟩
    · exact ⟨'t', _, rfl, by decide, by decide⟩
  | num n =>
    rw [serJ, intChars]
    by_cases hn : n < 0
    · rw [if_pos hn]
      exact ⟨'-', _, rfl, by decide, by decide⟩
    · rw [if_neg hn]
      rcases he : natChars n.toNat with _ | ⟨c, cs⟩
      · exact absurd he (natChars_ne_nil _)
      · have hc : c.isDigit = true := by
          have := natChars_digits n.toNat
          rw [he] at this
          exact this c (List.mem_cons_self c cs)
        obtain ⟨hws, _, _, _, _, _, _, _, hrb, _, _⟩ := digit_head_facts c hc
        exact ⟨c, cs, rfl, hws, hrb⟩
  | str s => exact ⟨'"', _, rfl, by decide, by decide⟩
  | arr xs => exact ⟨'[', _, rfl, by decide, by decide⟩
  | obj fs => exact ⟨'\x7b', _, rfl, by decide, by decide⟩

/-- The serialized body of a nonempty array starts with a character that is
neither whitespace nor a closing bracket. -/
theorem serA_cons_head (x : Json) (tl : JsonA) :
    ∃ c cs, serA (.cons x tl) = c :: cs ∧ isJsonWs c = false ∧ c ≠ ']' := by
  obtain ⟨c, cs0, he, hws, hrb⟩ := serJ_head x
  cases tl with
  | nil => exact ⟨c, cs0, by rw [serA, he], hws, hrb⟩
  | cons y tl2 =>
    refine ⟨c, cs0 ++ ',' :: serA (.cons y tl2), ?_, hws, hrb⟩
    rw [serA, he, List.cons_append]

/-- The serialized body of a nonempty object starts with a double quote. -/
theorem serO_cons_head (k : String) (v : Json) (tl : JsonO) :
    ∃ cs, serO (.cons k v tl) = '"' :: cs := by
  cases tl with
  | nil =>
    refine ⟨(k.toList.map escChar).flatten ++ '"' :: (':' :: serJ v), ?_⟩
    rw [serO, serStr]
    simp
  | cons k2 v2 tl2 =>
    refine ⟨(k.toList.map escChar).flatten ++
      '"' :: (':' :: (serJ v ++ ',' :: serO (.cons k2 v2 tl2))), ?_⟩
    rw [serO, serStr]
    simp

/-- Unfolding of the value parser on a `[`-headed input. -/
theorem parseVal_bracket (f : Nat) (t : List Char) :
    parseVal (f + 1) ('[' :: t) =
      (if (skipWs t).take 1 = [']'] then some (.arr .nil, (skipWs t).drop 1)
       else (parseElems (parseVal f) f (skipWs t)).map (fun p => (.arr p.1, p.2))) := by
  rw [parseVal, skipWs_cons_not '[' t (by decide)]
  simp

/-- Unfolding of the value parser on a `{`-headed input. -/
theorem parseVal_brace (f : Nat) (t : List Char) :
    parseVal (f + 1) ('\x7b' :: t) =
      (if (skipWs t).take 1 = ['\x7d'] then some (.obj .nil, (skipWs t).drop 1)
       else (parseMembers (parseVal f) f (skipWs t)).map (fun p => (.obj p.1, p.2))) := by
  rw [parseVal, skipWs_cons_not '\x7b' t (by decide)]
  simp

mutual

/-- Parsing a serialized JSON value recovers it exactly, leaving the
continuation untouched, whenever the fuel covers the input length. -/
theorem parseVal_serJ : ∀ (j : Json) (rest : List Char) (f : Nat),
    (serJ j ++ rest).length + 1 ≤ f → numSafe rest →
    parseVal f (serJ j ++ rest) = some (j, rest)
  | .null, rest, f => fun hf _ => by
    cases f with
    | zero => simp at hf
    | succ f' =>
      rw [show serJ Json.null ++ rest = 'n' :: 'u' :: 'l' :: 'l' :: rest from rfl,
        parseVal, skipWs_cons_not 'n' _ (by decide)]
      simp [List.take, List.drop]
  | .bool true, rest, f => fun hf _ => by
    cases f with
    | zero => simp at hf
    | succ f' =>
      rw [show serJ (Json.bool true) ++ rest = 't' :: 'r' :: 'u' :: 'e' :: rest from rfl,
        parseVal, skipWs_cons_not 't' _ (by decide)]
      simp [List.take, List.drop]
  | .bool false, rest, f => fun hf _ => by
    cases f with
    | zero => simp at hf
    | succ f' =>
      rw [show serJ (Json.bool false) ++ rest = 'f' :: 'a' :: 'l' :: 's' :: 'e' :: rest
          from rfl,
        parseVal, skipWs_cons_not 'f' _ (by decide)]
      simp [List.take, List.drop]
  | .num n, rest, f => fun hf hns => by
    cases f with
    | zero => simp at hf
    | succ f' =>
      rw [parseVal]
      rw [show serJ (.num n) = intChars n from rfl]
      by_cases hn : n < 0
      · rw [intChars, if_pos hn, List.cons_append,
          skipWs_cons_not '-' _ (by decide)]
        simp only [parseNat_natChars _ _ hns, numStop_of_numSafe rest hns]
        simp
        rw [abs_of_neg hn]
        ring
      · rw [intChars, if_neg hn]
        rcases he : natChars n.toNat with _ | ⟨c, cs⟩
        · exact absurd he (natChars_ne_nil _)
        · have hdigs := natChars_digits n.toNat
          rw [he] at hdigs
          have hc : c.isDigit = true := hdigs c (List.mem_cons_self c cs)
          obtain ⟨hws, hn1, hn2, hn3, hn4, hn5, hn6, hn7, _, _, _⟩ := digit_head_facts c hc
          rw [List.cons_append, skipWs_cons_not c _ hws]
          simp only [if_neg hn1, if_neg hn2, if_neg hn3, if_neg hn4, if_neg hn5, if_neg hn6,
            if_neg hn7]
          rw [← List.cons_append, ← he, parseNat_natChars _ _ hns]
          have hh : ((n.toNat : Int)) = n := by omega
          simp [numStop_of_numSafe rest hns, hh]
  | .str s, rest, f => fun hf _ => by
    cases f with
    | zero => simp at hf
    | succ f' =>
      rw [parseVal]
      rw [show serJ (.str s) = serStr s from rfl, serStr]
      simp only [List.cons_append, List.append_assoc, List.singleton_append]
      rw [skipWs_cons_not '"' _ (by decide)]
      simp
      exact ⟨s.data, parseStrBody_escape s.toList rest, rfl⟩
  | .arr .nil, rest, f => fun hf _ => by
    cases f with
    | zero => simp at hf
    | succ f' =>
      rw [show serJ (.arr .nil) ++ rest = '[' :: ']' :: rest from rfl, parseVal_bracket,
        skipWs_cons_not ']' rest (by decide)]
      simp [List.take, List.drop]
  | .arr (.cons x tl), rest, f => fun hf hns => by
    cases f with
    | zero => simp at hf
    | succ f' =>
      have hin : serJ (.arr (.cons x tl)) ++ rest =
          '[' :: (serA (.cons x tl) ++ ']' :: rest) := by
        rw [show serJ (.arr (.cons x tl)) = '[' :: (serA (.cons x tl) ++ [']']) from rfl]
        simp
      rw [hin, parseVal_bracket]
      obtain ⟨c0, cs0, hse, hws0, hrb0⟩ := serA_cons_head x tl
      have hr1 : skipWs (serA (.cons x tl) ++ ']' :: rest) =
          serA (.cons x tl) ++ ']' :: rest := by
        rw [hse, List.cons_append]
        exact skipWs_cons_not _ _ hws0
      have htake : (serA (.cons x tl) ++ ']' :: rest).take 1 = [c0] := by
        rw [hse, List.cons_append]
        rfl
      rw [hr1, htake, if_neg (by simp [hrb0])]
      have hlen : (serJ (.arr (.cons x tl))).length = (serA (.cons x tl)).length + 2 := by
        rw [show serJ (.arr (.cons x tl)) = '[' :: (serA (.cons x tl) ++ [']']) from rfl]
        simp
      rw [parseElems_ser (.cons x tl) rest f' f'
        (by simp [List.length_append, hlen] at hf ⊢; omega)
        (by simp [List.length_append, hlen] at hf ⊢; omega)
        (fun h => JsonA.noConfusion h)]
      rfl
  | .obj .nil, rest, f => fun hf _ => by
    cases f with
    | zero => simp at hf
    | succ f' =>
      rw [show serJ (.obj .nil) ++ rest = '\x7b' :: '\x7d' :: rest from rfl, parseVal_brace,
        skipWs_cons_not '\x7d' rest (by decide)]
      simp [List.take, List.drop]
  | .obj (.cons k v tl), rest, f => fun hf hns => by
    cases f with
    | zero => simp at hf
    | succ f' =>
      have hin : serJ (.obj (.cons k v tl)) ++ rest =
          '\x7b' :: (serO (.cons k v tl) ++ '\x7d' :: rest) := by
        rw [show serJ (.obj (.cons k v tl)) = '\x7b' :: (serO (.cons k v tl) ++ ['\x7d'])
          from rfl]
        simp
      rw [hin, parseVal_brace]
      obtain ⟨cs0, hse⟩ := serO_cons_head k v tl
      have hr1 : skipWs (serO (.cons k v tl) ++ '\x7d' :: rest) =
          serO (.cons k v tl) ++ '\x7d' :: rest := by
        rw [hse, List.cons_append]
        exact skipWs_cons_not _ _ (by decide)
      have htake : (serO (.cons k v tl) ++ '\x7d' :: rest).take 1 = ['"'] := by
        rw [hse, List.cons_append]
        rfl
      rw [hr1, htake, if_neg (by simp)]
      have hlen : (serJ (.obj (.cons k v tl))).length = (serO (.cons k v tl)).length + 2 := by
        rw [show serJ (.obj (.cons k v tl)) = '\x7b' :: (serO (.cons k v tl) ++ ['\x7d'])
          from rfl]
        simp
      rw [parseMembers_ser (.cons k v tl) rest f' f'
        (by simp [List.length_append, hlen] at hf ⊢; omega)
        (by simp [List.length_append, hlen] at hf ⊢; omega)
        (fun h => JsonO.noConfusion h)]
      rfl

/-- Parsing the serialized elements of a nonempty array (terminated by `]`)
recovers the elements. -/
theorem parseElems_ser : ∀ (xs : JsonA) (rest : List Char) (f g : Nat),
    (serA xs ++ ']' :: rest).length + 1 ≤ f →
    (serA xs ++ ']' :: rest).length ≤ g →
    xs ≠ .nil →
    parseElems (parseVal f) g (serA xs ++ ']' :: rest) = some (xs, rest)
  | .nil, _, _, _ => fun _ _ hne => absurd rfl hne
  | .cons x .nil, rest, f, g => fun hfb hgb _ => by
    have hg1 : 1 ≤ g := by
      simp [List.length_append] at hgb
      omega
    cases g with
    | zero => omega
    | succ g' =>
      rw [parseElems]
      rw [show serA (.cons x .nil) = serJ x from by rw [serA]] at hfb hgb ⊢
      rw [parseVal_serJ x (']' :: rest) f hfb
        (numSafe_cons _ _ (by decide) (by decide) (by decide) (by decide))]
      simp [skipWs_cons_not ']' rest (by decide), List.take, List.drop]
  | .cons x (.cons y tl2), rest, f, g => fun hfb hgb _ => by
    have hg1 : 1 ≤ g := by
      simp [List.length_append] at hgb
      omega
    cases g with
    | zero => omega
    | succ g' =>
      rw [parseElems]
      have hsa : serA (.cons x (.cons y tl2)) ++ ']' :: rest =
          serJ x ++ ',' :: (serA (.cons y tl2) ++ ']' :: rest) := by
        rw [serA]
        simp
      rw [hsa]
      rw [parseVal_serJ x (',' :: (serA (.cons y tl2) ++ ']' :: rest)) f
        (by rw [hsa] at hfb; exact hfb)
        (numSafe_cons _ _ (by decide) (by decide) (by decide) (by decide))]
      have hlen : (serA (.cons x (.cons y tl2))).length =
          (serJ x).length + 1 + (serA (.cons y tl2)).length := by
        rw [serA]
        simp
        omega
      have hrec : parseElems (parseVal f) g' (serA (.cons y tl2) ++ ']' :: rest) =
          some (.cons y tl2, rest) :=
        parseElems_ser (.cons y tl2) rest f g'
          (by simp [List.length_append, hlen] at hfb ⊢; omega)
          (by simp [List.length_append, hlen] at hgb ⊢; omega)
          (fun h => JsonA.noConfusion h)
      simp [skipWs_cons_not, isJsonWs, hrec, List.take, List.drop]

/-- Parsing the serialized members of a nonempty object (terminated by `}`)
recovers the members. -/
theorem parseMembers_ser : ∀ (fs : JsonO) (rest : List Char) (f g : Nat),
    (serO fs ++ '\x7d' :: rest).length + 1 ≤ f →
    (serO fs ++ '\x7d' :: rest).length ≤ g →
    fs ≠ .nil →
    parseMembers (parseVal f) g (serO fs ++ '\x7d' :: rest) = some (fs, rest)
  | .nil, _, _, _ => fun _ _ hne => absurd rfl hne
  | .cons k v .nil, rest, f, g => fun hfb hgb _ => by
    have hg1 : 1 ≤ g := by
      simp [List.length_append] at hgb
      omega
    cases g with
    | zero => omega
    | succ g' =>
      rw [parseMembers]
      have hin : serO (.cons k v .nil) ++ '\x7d' :: rest =
          '"' :: ((k.toList.map escChar).flatten ++
            '"' :: (':' :: (serJ v ++ '\x7d' :: rest))) := by
        rw [serO, serStr]
        simp
      rw [hin]
      rw [skipWs_cons_not '"' _ (by decide)]
      have hv : parseVal f (serJ v ++ '\x7d' :: rest) = some (v, '\x7d' :: rest) :=
        parseVal_serJ v ('\x7d' :: rest) f
          (by rw [serO] at hfb; simp [List.length_append] at hfb ⊢; omega)
          (numSafe_cons _ _ (by decide) (by decide) (by decide) (by decide))
      simp [List.take, List.drop, parseStrBody_escape, skipWs_cons_not, isJsonWs, hv,
        mk_toList]
  | .cons k v (.cons k2 v2 tl), rest, f, g => fun hfb hgb _ => by
    have hg1 : 1 ≤ g := by
      simp [List.length_append] at hgb
      omega
    cases g with
    | zero => omega
    | succ g' =>
      rw [parseMembers]
      have hin : serO (.cons k v (.cons k2 v2 tl)) ++ '\x7d' :: rest =
          '"' :: ((k.toList.map escChar).flatten ++
            '"' :: (':' :: (serJ v ++
              ',' :: (serO (.cons k2 v2 tl) ++ '\x7d' :: rest)))) := by
        rw [serO, serStr]
        simp
      rw [hin]
      rw [skipWs_cons_not '"' _ (by decide)]
      have hv : parseVal f (serJ v ++ ',' :: (serO (.cons k2 v2 tl) ++ '\x7d' :: rest)) =
          some (v, ',' :: (serO (.cons k2 v2 tl) ++ '\x7d' :: rest)) :=
        parseVal_serJ v _ f
          (by rw [serO] at hfb; simp [List.length_append] at hfb ⊢; omega)
          (numSafe_cons _ _ (by decide) (by decide) (by decide) (by decide))
      have hrec : parseMembers (parseVal f) g'
          (serO (.cons k2 v2 tl) ++ '\x7d' :: rest) = some (.cons k2 v2 tl, rest) :=
        parseMembers_ser (.cons k2 v2 tl) rest f g'
          (by rw [serO] at hfb; simp [List.length_append] at hfb ⊢; omega)
          (by rw [serO] at hgb; simp [List.length_append] at hgb ⊢; omega)
          (fun h => JsonO.noConfusion h)
      simp [List.take, List.drop, parseStrBody_escape, skipWs_cons_not, isJsonWs, hv, hrec,
        mk_toList]

end

/-- Parsing a serialized JSON value recovers it (model of
`JSON.parse(JSON.stringify(e)) = e`). -/
theorem jsonParse_serJ (e : Json) : jsonParse (serJ e) = some e := by
  rw [jsonParse]
  have h := parseVal_serJ e [] ((serJ e).length + 1) (by simp) trivial
  rw [List.append_nil] at h
  rw [h]
  simp [skipWs]

/-- When block splitting finds no complete block, the buffer is unchanged. -/
theorem splitBuf_nil_buf : ∀ (s : List Char), (splitBuf s).1 = [] → (splitBuf s).2 = s
  | [] => fun _ => rfl
  | [c] => fun _ => rfl
  | c1 :: c2 :: s2 => by
    by_cases hd : c1 = '\x0a' ∧ c2 = '\x0a'
    · intro h
      rw [splitBuf] at h
      simp [hd] at h
    · intro h
      rcases hp : (splitBuf (c2 :: s2)).1 with _ | ⟨b, bs⟩
      · have h2 := splitBuf_nil_buf (c2 :: s2) hp
        rw [splitBuf]
        simp [hd, hp, h2]
      · rw [splitBuf] at h
        simp [hd, hp] at h

/-- Block splitting distributes over concatenation: feeding more input only
continues from the retained buffer. -/
theorem splitBuf_append : ∀ (s t : List Char),
    splitBuf (s ++ t) = ((splitBuf s).1 ++ (splitBuf ((splitBuf s).2 ++ t)).1,
                         (splitBuf ((splitBuf s).2 ++ t)).2)
  | [], t => by simp [splitBuf]
  | [c], t => by simp [splitBuf]
  | c1 :: c2 :: s2, t => by
    by_cases hd : c1 = '\x0a' ∧ c2 = '\x0a'
    · have ih := splitBuf_append s2 t
      rw [List.cons_append, List.cons_append]
      rw [show splitBuf (c1 :: c2 :: (s2 ++ t)) =
          ([] :: (splitBuf (s2 ++ t)).1, (splitBuf (s2 ++ t)).2) from by
        rw [splitBuf]; simp [hd]]
      rw [show splitBuf (c1 :: c2 :: s2) =
          ([] :: (splitBuf s2).1, (splitBuf s2).2) from by
        rw [splitBuf]; simp [hd]]
      rw [ih]
      simp
    · have ih := splitBuf_append (c2 :: s2) t
      rcases hp : (splitBuf (c2 :: s2)).1 with _ | ⟨b, bs⟩
      · have h2 := splitBuf_nil_buf (c2 :: s2) hp
        rw [List.cons_append, List.cons_append]
        rw [show splitBuf (c1 :: c2 :: s2) = ([], c1 :: c2 :: s2) from by
          rw [splitBuf]; simp [hd, hp, h2]]
        simp
      · rw [List.cons_append, List.cons_append]
        rw [show splitBuf (c1 :: (c2 :: (s2 ++ t))) =
            ((c1 :: ((splitBuf (c2 :: s2)).1.head (by rw [hp]; simp))) ::
              ((splitBuf (c2 :: s2)).1.tail ++
                (splitBuf ((splitBuf (c2 :: s2)).2 ++ t)).1),
             (splitBuf ((splitBuf (c2 :: s2)).2 ++ t)).2) from by
          rw [splitBuf, ← List.cons_append, ih]
          simp [hp, hd]]
        rw [show splitBuf (c1 :: c2 :: s2) =
            ((c1 :: b) :: bs, (splitBuf (c2 :: s2)).2) from by
          rw [splitBuf]; simp [hd, hp]]
        simp [hp]

/-- The buffer retained by block splitting contains no further complete block. -/
theorem splitBuf_residue (s : List Char) : (splitBuf ((splitBuf s).2)).1 = [] := by
  have h := splitBuf_append s []
  rw [List.append_nil, List.append_nil] at h
  have h1 : (splitBuf s).1 = (splitBuf s).1 ++ (splitBuf ((splitBuf s).2)).1 := by
    conv_lhs => rw [h]
  have := congrArg List.length h1
  simp at this
  exact this

/-- The retained buffer never exceeds the input length. -/
theorem splitBuf_buf_len : ∀ (s : List Char), (splitBuf s).2.length ≤ s.length
  | [] => by simp [splitBuf]
  | [c] => by simp [splitBuf]
  | c1 :: c2 :: s2 => by
    by_cases hd : c1 = '\x0a' ∧ c2 = '\x0a'
    · rw [splitBuf]
      simp only [hd, and_self, if_true]
      have := splitBuf_buf_len s2
      simp
      omega
    · rw [splitBuf]
      have := splitBuf_buf_len (c2 :: s2)
      rcases hp : (splitBuf (c2 :: s2)).1 with _ | ⟨b, bs⟩
      · simp only [hd, if_false, hp]
        simp at this ⊢
        omega
      · simp only [hd, if_false, hp]
        simp at this ⊢
        omega

/-- Splitting a newline-free block followed by the double-newline delimiter
emits exactly that block. -/
theorem splitBuf_block : ∀ (s t : List Char), '\x0a' ∉ s →
    splitBuf (s ++ '\x0a' :: '\x0a' :: t) = (s :: (splitBuf t).1, (splitBuf t).2)
  | [], t => fun _ => by
    rw [List.nil_append, splitBuf]
    simp
  | [c], t => fun hnl => by
    have hc : c ≠ '\x0a' := by
      intro h
      exact hnl (by rw [h]; exact List.mem_singleton_self _)
    rw [List.cons_append, List.nil_append, splitBuf]
    rw [show splitBuf ('\x0a' :: '\x0a' :: t) = ([] :: (splitBuf t).1, (splitBuf t).2) from by
      rw [splitBuf]; simp]
    simp [hc]
  | c1 :: c2 :: s2, t => fun hnl => by
    have hc1 : c1 ≠ '\x0a' := fun h => hnl (by rw [h]; exact List.mem_cons_self _ _)
    have hnl2 : '\x0a' ∉ c2 :: s2 := fun h => hnl (List.mem_cons_of_mem c1 h)
    have ih := splitBuf_block (c2 :: s2) t hnl2
    rw [List.cons_append, List.cons_append, splitBuf]
    simp only [show ¬(c1 = '\x0a' ∧ c2 = '\x0a') from fun h => hc1 h.1, if_false]
    rw [← List.cons_append, ih]

/-- Splitting a concatenation of SSE frames yields one block per event and an
empty buffer. -/
theorem splitBuf_frames : ∀ (es : List Json),
    splitBuf ((es.map sseFrame).flatten) =
      (es.map (fun e => dataMarker ++ serJ e), []) := by
  intro es
  induction es with
  | nil => simp [splitBuf]
  | cons e tl ih =>
    have hnl : '\x0a' ∉ dataMarker ++ serJ e := by
      intro hm
      rcases List.mem_append.mp hm with h | h
      · exact absurd h (by decide)
      · exact serJ_nonl e h
    rw [List.map_cons, List.flatten_cons, sseFrame, List.append_assoc,
      List.cons_append, List.cons_append, List.nil_append,
      splitBuf_block _ _ hnl, ih, List.map_cons]

/-- Splitting a newline-free block into lines yields the block itself. -/
theorem splitLines_nonl : ∀ (s : List Char), '\x0a' ∉ s → splitLines s = [s]
  | [], _ => rfl
  | c :: rest, hnl => by
    have hc : c ≠ '\x0a' := fun h => hnl (by rw [h]; exact List.mem_cons_self _ _)
    have ih := splitLines_nonl rest (fun h => hnl (List.mem_cons_of_mem c h))
    rw [splitLines]
    simp only [hc, if_false, ih]

/-- A single-block line join is the block itself. -/
theorem intercalate_single (sep x : List Char) : List.intercalate sep [x] = x := by
  simp [List.intercalate, List.intersperse]

/-- Parsing the SSE frame body of a serialized event recovers the event. -/
theorem parseBlock_frame (e : Json) : parseBlock (dataMarker ++ serJ e) = some e := by
  rw [parseBlock, splitLines_nonl (dataMarker ++ serJ e) (by
    intro hm
    rcases List.mem_append.mp hm with h | h
    · exact absurd h (by decide)
    · exact serJ_nonl e h)]
  have htake : (dataMarker ++ serJ e).take 6 = dataMarker := by
    rw [show (6 : Nat) = dataMarker.length from rfl, List.take_left]
  have hdrop : (dataMarker ++ serJ e).drop 6 = serJ e := by
    rw [show (6 : Nat) = dataMarker.length from rfl, List.drop_left]
  simp only [List.filterMap, htake, hdrop, if_pos rfl]
  simp [intercalate_single, jsonParse_serJ]

/-- Running the framer over chunks whose total content splits with no trailing
buffer parses every complete block, independently of the chunk boundaries. -/
theorem runFramerAux_clean : ∀ (chunks : List (List Char)) (buf : List Char),
    (buf ++ chunks.flatten).length ≤ MAX_SSE_BUFFER →
    (splitBuf buf).1 = [] →
    (splitBuf (buf ++ chunks.flatten)).2 = [] →
    runFramerAux buf chunks =
      .ok ((splitBuf (buf ++ chunks.flatten)).1.filterMap parseBlock)
  | [], buf => fun _ hnb hres => by
    rw [List.flatten_nil, List.append_nil] at hres ⊢
    have hb : buf = [] := by
      have h2 := splitBuf_nil_buf buf hnb
      rw [hres] at h2
      exact h2.symm
    subst hb
    rw [runFramerAux]
    simp [sseFlush, splitBuf]
  | c :: cs, buf => fun hlen hnb hres => by
    rw [List.flatten_cons] at hlen hres
    have hnof : ¬ ((buf ++ c).length > MAX_SSE_BUFFER) := by
      simp [List.length_append] at hlen ⊢
      omega
    have happ := splitBuf_append (buf ++ c) cs.flatten
    rw [List.append_assoc] at happ
    have ihlen : ((splitBuf (buf ++ c)).2 ++ cs.flatten).length ≤ MAX_SSE_BUFFER := by
      have hb := splitBuf_buf_len (buf ++ c)
      simp [List.length_append] at hlen hb ⊢
      omega
    have ihnb : (splitBuf ((splitBuf (buf ++ c)).2)).1 = [] := splitBuf_residue _
    have ihres : (splitBuf ((splitBuf (buf ++ c)).2 ++ cs.flatten)).2 = [] := by
      rw [happ] at hres
      exact hres
    have ih := runFramerAux_clean cs ((splitBuf (buf ++ c)).2) ihlen ihnb ihres
    rw [runFramerAux]
    rw [show sseFeed buf c =
        .ok ((splitBuf (buf ++ c)).1.filterMap parseBlock, (splitBuf (buf ++ c)).2) from by
      rw [sseFeed]
      simp only [hnof, if_false]]
    simp only [ih, List.flatten_cons, happ, List.filterMap_append]

/-- Each framed event parses back to itself across a list. -/
theorem filterMap_parseBlock_frames : ∀ (es : List Json),
    List.filterMap (fun e => parseBlock (dataMarker ++ serJ e)) es = es
  | [] => rfl
  | e :: tl => by
    rw [List.filterMap_cons, parseBlock_frame, filterMap_parseBlock_frames tl]

/-- Helper: overall framer round-trip for frame concatenations within the
buffer bound. -/
theorem runFramer_frames (es : List Json) (chunks : List (List Char))
    (hjoin : chunks.flatten = (es.map sseFrame).flatten)
    (hlen : chunks.flatten.length ≤ MAX_SSE_BUFFER) :
    runFramer chunks = .ok es := by
  rw [runFramer, runFramerAux_clean chunks []
    (by rw [List.nil_append]; exact hlen)
    (by simp [splitBuf])
    (by rw [List.nil_append, hjoin, splitBuf_frames])]
  rw [List.nil_append, hjoin, splitBuf_frames]
  show Except.ok (List.filterMap parseBlock
    (es.map (fun e => dataMarker ++ serJ e))) = Except.ok es
  rw [List.filterMap_map,
    show parseBlock ∘ (fun e => dataMarker ++ serJ e) =
      (fun e => parseBlock (dataMarker ++ serJ e)) from rfl,
    filterMap_parseBlock_frames]

/-- Unfolding of the serializer on a string value. -/
theorem serJ_str (s : String) : serJ (.str s) = serStr s := rfl

/-- The character list of a rebuilt string. -/
theorem toList_mk (l : List Char) : (String.mk l).toList = l := rfl

/-- Length of a serialized string literal whose characters all escape to
themselves. -/
theorem serStr_len_plain (l : List Char) (h : ∀ c ∈ l, escChar c = [c]) :
    (serStr (String.mk l)).length = l.length + 2 := by
  rw [serStr, toList_mk]
  have hmap : l.map escChar = l.map (fun c => [c]) := List.map_congr_left h
  rw [hmap, List.length_append, List.length_cons]
  have hfl : ∀ (m : List Char), (m.map (fun c => ([c] : List Char))).flatten.length = m.length := by
    intro m
    induction m with
    | nil => rfl
    | cons a t ih =>
      rw [List.map_cons, List.flatten_cons, List.length_append, ih]
      simp
      omega
  rw [hfl]
  simp

/-- The frame of the six-megabyte event exceeds the five-mebibyte SSE buffer. -/
theorem bigEvent_frame_len : (sseFrame bigEvent).length = 6000010 := by
  rw [sseFrame, bigEvent, serJ_str]
  rw [List.length_append, List.length_append]
  rw [serStr_len_plain (List.replicate 6000000 'a') (by
    intro c hc
    rw [List.eq_of_mem_replicate hc]
    decide)]
  rw [List.length_replicate]
  decide

/-- Feeding the oversized frame makes the framer fail with the overflow error
instead of returning the event. -/
theorem runFramer_bigEvent :
    runFramer [sseFrame bigEvent] = .error "SSE buffer overflow — response too large" := by
  have hfeed : sseFeed [] (sseFrame bigEvent) =
      .error "SSE buffer overflow — response too large" := by
    simp only [sseFeed, List.nil_append]
    rw [if_pos (by rw [bigEvent_frame_len]; simp [MAX_SSE_BUFFER])]
  rw [runFramer, runFramerAux, hfeed]

/-- C5 (corrected): framing any finite sequence of JSON events and feeding the
concatenation to the SSE framer at arbitrary chunk boundaries recovers exactly
the original events, provided the total framed content stays within the
five-mebibyte SSE buffer limit (the original claim omitted this bound: an
oversized frame makes `feed` throw instead); in particular the S5 resumption
scenario returns `[{a:1}]` from the first call and `[{b:2}]` from the second. -/
theorem sse_roundtrip_spec :
    (∀ (es : List Json) (chunks : List (List Char)),
        chunks.flatten = (es.map sseFrame).flatten →
        chunks.flatten.length ≤ MAX_SSE_BUFFER →
        runFramer chunks = .ok es) ∧
    sseFeed [] s5Chunk1 = .ok ([s5EventA], s5Rem) ∧
    sseFeed s5Rem s5Chunk2 = .ok ([s5EventB], []) :=
  ⟨fun es chunks h1 h2 => runFramer_frames es chunks h1 h2, rfl, rfl⟩

/-- Witness for C5: the round-trip applied to the two S5 chunks carrying the
two S5 events. -/
theorem sse_roundtrip_spec_witness :
    runFramer [s5Chunk1, s5Chunk2] = .ok [s5EventA, s5EventB] :=
  sse_roundtrip_spec.1 [s5EventA, s5EventB] [s5Chunk1, s5Chunk2] (by decide) (by decide)

/-- Counterexample to the original C5: a single six-megabyte string event,
framed and fed as one chunk, is not recovered — the framer reports the SSE
buffer overflow error instead. -/
theorem sse_roundtrip_counterexample :
    runFramer [sseFrame bigEvent] ≠ .ok [bigEvent] ∧
    runFramer [sseFrame bigEvent] = .error "SSE buffer overflow — response too large" :=
  ⟨fun h => by rw [runFramer_bigEvent] at h; exact Except.noConfusion h,
   runFramer_bigEvent⟩

/-- The audit automaton processes concatenations sequentially. -/
theorem audit_append : ∀ (a b : List AnthEvent) (n : Nat) (o : Bool),
    audit (a ++ b) n o =
      (match audit a n o with
       | some p => audit b p.1 p.2
       | none => none)
  | [], b, n, o => rfl
  | e :: rest, b, n, o => by
    cases e with
    | contentBlockStart i bl =>
      rw [List.cons_append, audit, audit]
      by_cases h : o = false ∧ i = n
      · simp only [h, if_true, and_self, if_pos h]
        exact audit_append rest b n true
      · simp [h]
    | contentBlockDelta i d =>
      rw [List.cons_append, audit, audit]
      by_cases h : o = true ∧ i = n
      · simp only [if_pos h]
        exact audit_append rest b n true
      · simp [h]
    | contentBlockStop i =>
      rw [List.cons_append, audit, audit]
      by_cases h : o = true ∧ i = n
      · simp only [if_pos h]
        exact audit_append rest b (n + 1) false
      · simp [h]
    | messageStart id mo t =>
      rw [List.cons_append, audit, audit] <;>
        first
          | exact audit_append rest b n o
          | simp
    | ping =>
      rw [List.cons_append, audit, audit] <;>
        first
          | exact audit_append rest b n o
          | simp
    | messageDelta sr ot =>
      rw [List.cons_append, audit, audit] <;>
        first
          | exact audit_append rest b n o
          | simp
    | messageStop =>
      rw [List.cons_append, audit, audit] <;>
        first
          | exact audit_append rest b n o
          | simp
    | errorEvent m =>
      rw [List.cons_append, audit, audit] <;>
        first
          | exact audit_append rest b n o
          | simp

/-- Audit step on a block start. -/
theorem audit_cons_start (i : Nat) (b : BlockInfo) (rest : List AnthEvent) (n : Nat) (o : Bool) :
    audit (.contentBlockStart i b :: rest) n o =
      if o = false ∧ i = n then audit rest n true else none := by
  rw [audit]

/-- Audit step on a block delta. -/
theorem audit_cons_delta (i : Nat) (d : DeltaInfo) (rest : List AnthEvent) (n : Nat) (o : Bool) :
    audit (.contentBlockDelta i d :: rest) n o =
      if o = true ∧ i = n then audit rest n true else none := by
  rw [audit]

/-- Audit step on a block stop. -/
theorem audit_cons_stop (i : Nat) (rest : List AnthEvent) (n : Nat) (o : Bool) :
    audit (.contentBlockStop i :: rest) n o =
      if o = true ∧ i = n then audit rest (n + 1) false else none := by
  rw [audit]

/-- Audit ignores `message_start`. -/
theorem audit_cons_msgStart (id mo : String) (t : Int) (rest : List AnthEvent) (n : Nat)
    (o : Bool) : audit (.messageStart id mo t :: rest) n o = audit rest n o := by
  rw [audit] <;> simp

/-- Audit ignores `ping`. -/
theorem audit_cons_ping (rest : List AnthEvent) (n : Nat) (o : Bool) :
    audit (.ping :: rest) n o = audit rest n o := by
  rw [audit] <;> simp

/-- Audit ignores `message_delta`. -/
theorem audit_cons_msgDelta (sr : String) (ot : Int) (rest : List AnthEvent) (n : Nat)
    (o : Bool) : audit (.messageDelta sr ot :: rest) n o = audit rest n o := by
  rw [audit] <;> simp

/-- Audit ignores `message_stop`. -/
theorem audit_cons_msgStop (rest : List AnthEvent) (n : Nat) (o : Bool) :
    audit (.messageStop :: rest) n o = audit rest n o := by
  rw [audit] <;> simp

/-- Audit ignores `error`. -/
theorem audit_cons_error (m : String) (rest : List AnthEvent) (n : Nat) (o : Bool) :
    audit (.errorEvent m :: rest) n o = audit rest n o := by
  rw [audit] <;> simp

/-- Index filter on a block start. -/
theorem filtAt_cons_start (i j : Nat) (b : BlockInfo) (rest : List AnthEvent) :
    filtAt i (.contentBlockStart j b :: rest) =
      if j = i then .contentBlockStart j b :: filtAt i rest else filtAt i rest := by
  by_cases h : j = i <;> simp [filtAt, List.filter_cons, h]

/-- Index filter on a block delta. -/
theorem filtAt_cons_delta (i j : Nat) (d : DeltaInfo) (rest : List AnthEvent) :
    filtAt i (.contentBlockDelta j d :: rest) =
      if j = i then .contentBlockDelta j d :: filtAt i rest else filtAt i rest := by
  by_cases h : j = i <;> simp [filtAt, List.filter_cons, h]

/-- Index filter on a block stop. -/
theorem filtAt_cons_stop (i j : Nat) (rest : List AnthEvent) :
    filtAt i (.contentBlockStop j :: rest) =
      if j = i then .contentBlockStop j :: filtAt i rest else filtAt i rest := by
  by_cases h : j = i <;> simp [filtAt, List.filter_cons, h]

/-- Index filter ignores non-block events. -/
theorem filtAt_cons_msgStart (i : Nat) (id mo : String) (t : Int) (rest : List AnthEvent) :
    filtAt i (.messageStart id mo t :: rest) = filtAt i rest := by
  simp [filtAt, List.filter_cons]

theorem filtAt_cons_ping (i : Nat) (rest : List AnthEvent) :
    filtAt i (.ping :: rest) = filtAt i rest := by
  simp [filtAt, List.filter_cons]

theorem filtAt_cons_msgDelta (i : Nat) (sr : String) (ot : Int) (rest : List AnthEvent) :
    filtAt i (.messageDelta sr ot :: rest) = filtAt i rest := by
  simp [filtAt, List.filter_cons]

theorem filtAt_cons_msgStop (i : Nat) (rest : List AnthEvent) :
    filtAt i (.messageStop :: rest) = filtAt i rest := by
  simp [filtAt, List.filter_cons]

theorem filtAt_cons_error (i : Nat) (m : String) (rest : List AnthEvent) :
    filtAt i (.errorEvent m :: rest) = filtAt i rest := by
  simp [filtAt, List.filter_cons]

/-- Block discipline only depends on the filtered subsequence. -/
theorem closedOrAbsent_congr (i : Nat) (a b : List AnthEvent)
    (h : filtAt i a = filtAt i b) : closedOrAbsent i b → closedOrAbsent i a := by
  intro hc
  unfold closedOrAbsent at hc ⊢
  rw [h]
  exact hc

mutual

/-- A trace the audit accepts from a closed state at counter `n` has empty
filters below `n` and well-bracketed blocks everywhere. -/
theorem audit_closed : ∀ (evs : List AnthEvent) (n m : Nat),
    audit evs n false = some (m, false) →
    (∀ i, i < n → filtAt i evs = []) ∧ (∀ i, closedOrAbsent i evs)
  | [], n, m, h => ⟨fun i _ => rfl, fun i => Or.inl rfl⟩
  | e :: rest, n, m, h => by
    cases e with
    | contentBlockStart j b =>
      rw [audit_cons_start] at h
      by_cases hc : (false = false ∧ j = n)
      · rw [if_pos hc] at h
        obtain ⟨-, hj⟩ := hc
        subst hj
        obtain ⟨hlow, hat, hoth⟩ := audit_open rest j m h
        refine ⟨?_, ?_⟩
        · intro i hi
          rw [filtAt_cons_start, if_neg (by omega)]
          exact hlow i hi
        · intro i
          by_cases hij : j = i
          · subst hij
            right
            obtain ⟨ds, hds, hdel⟩ := hat
            exact ⟨b, ds, by rw [filtAt_cons_start, if_pos rfl, hds], hdel⟩
          · exact closedOrAbsent_congr i _ rest
              (by rw [filtAt_cons_start, if_neg hij]) (hoth i (fun hh => hij hh.symm))
      · rw [if_neg hc] at h
        simp at h
    | contentBlockDelta j d =>
      rw [audit_cons_delta, if_neg (by simp)] at h
      simp at h
    | contentBlockStop j =>
      rw [audit_cons_stop, if_neg (by simp)] at h
      simp at h
    | messageStart id mo t =>
      rw [audit_cons_msgStart] at h
      obtain ⟨hlow, hcl⟩ := audit_closed rest n m h
      exact ⟨fun i hi => by rw [filtAt_cons_msgStart]; exact hlow i hi,
             fun i => closedOrAbsent_congr i _ rest (filtAt_cons_msgStart i id mo t rest)
               (hcl i)⟩
    | ping =>
      rw [audit_cons_ping] at h
      obtain ⟨hlow, hcl⟩ := audit_closed rest n m h
      exact ⟨fun i hi => by rw [filtAt_cons_ping]; exact hlow i hi,
             fun i => closedOrAbsent_congr i _ rest (filtAt_cons_ping i rest) (hcl i)⟩
    | messageDelta sr ot =>
      rw [audit_cons_msgDelta] at h
      obtain ⟨hlow, hcl⟩ := audit_closed rest n m h
      exact ⟨fun i hi => by rw [filtAt_cons_msgDelta]; exact hlow i hi,
             fun i => closedOrAbsent_congr i _ rest (filtAt_cons_msgDelta i sr ot rest)
               (hcl i)⟩
    | messageStop =>
      rw [audit_cons_msgStop] at h
      obtain ⟨hlow, hcl⟩ := audit_closed rest n m h
      exact ⟨fun i hi => by rw [filtAt_cons_msgStop]; exact hlow i hi,
             fun i => closedOrAbsent_congr i _ rest (filtAt_cons_msgStop i rest) (hcl i)⟩
    | errorEvent msg =>
      rw [audit_cons_error] at h
      obtain ⟨hlow, hcl⟩ := audit_closed rest n m h
      exact ⟨fun i hi => by rw [filtAt_cons_error]; exact hlow i hi,
             fun i => closedOrAbsent_congr i _ rest (filtAt_cons_error i msg rest) (hcl i)⟩

/-- A trace the audit accepts from an open state at counter `n` closes block
`n` with deltas then a stop, has empty filters below `n`, and is
well-bracketed at every other index. -/
theorem audit_open : ∀ (evs : List AnthEvent) (n m : Nat),
    audit evs n true = some (m, false) →
    (∀ i, i < n → filtAt i evs = []) ∧
    (∃ ds, filtAt n evs = ds ++ [.contentBlockStop n] ∧
       ∀ e ∈ ds, ∃ d, e = AnthEvent.contentBlockDelta n d) ∧
    (∀ i, i ≠ n → closedOrAbsent i evs)
  | [], n, m, h => by
    rw [audit] at h
    simp at h
  | e :: rest, n, m, h => by
    cases e with
    | contentBlockStart j b =>
      rw [audit_cons_start, if_neg (by simp)] at h
      simp at h
    | contentBlockDelta j d =>
      rw [audit_cons_delta] at h
      by_cases hc : (true = true ∧ j = n)
      · rw [if_pos hc] at h
        obtain ⟨-, hj⟩ := hc
        subst hj
        obtain ⟨hlow, hat, hoth⟩ := audit_open rest j m h
        refine ⟨?_, ?_, ?_⟩
        · intro i hi
          rw [filtAt_cons_delta, if_neg (by omega)]
          exact hlow i hi
        · obtain ⟨ds, hds, hdel⟩ := hat
          refine ⟨AnthEvent.contentBlockDelta j d :: ds, ?_, ?_⟩
          · rw [filtAt_cons_delta, if_pos rfl, hds, List.cons_append]
          · intro e he
            rcases List.mem_cons.mp he with he | he
            · exact ⟨d, he⟩
            · exact hdel e he
        · intro i hi
          exact closedOrAbsent_congr i _ rest
            (by rw [filtAt_cons_delta, if_neg (fun hh => hi hh.symm)]) (hoth i hi)
      · rw [if_neg hc] at h
        simp at h
    | contentBlockStop j =>
      rw [audit_cons_stop] at h
      by_cases hc : (true = true ∧ j = n)
      · rw [if_pos hc] at h
        obtain ⟨-, hj⟩ := hc
        subst hj
        obtain ⟨hlow, hcl⟩ := audit_closed rest (j + 1) m h
        refine ⟨?_, ?_, ?_⟩
        · intro i hi
          rw [filtAt_cons_stop, if_neg (by omega)]
          exact hlow i (by omega)
        · refine ⟨[], ?_, by simp⟩
          rw [filtAt_cons_stop, if_pos rfl, hlow j (by omega), List.nil_append]
        · intro i hi
          exact closedOrAbsent_congr i _ rest
            (by rw [filtAt_cons_stop, if_neg (fun hh => hi hh.symm)]) (hcl i)
      · rw [if_neg hc] at h
        simp at h
    | messageStart id mo t =>
      rw [audit_cons_msgStart] at h
      obtain ⟨hlow, hat, hoth⟩ := audit_open rest n m h
      exact ⟨fun i hi => by rw [filtAt_cons_msgStart]; exact hlow i hi,
             by rw [filtAt_cons_msgStart]; exact hat,
             fun i hi => closedOrAbsent_congr i _ rest (filtAt_cons_msgStart i id mo t rest)
               (hoth i hi)⟩
    | ping =>
      rw [audit_cons_ping] at h
      obtain ⟨hlow, hat, hoth⟩ := audit_open rest n m h
      exact ⟨fun i hi => by rw [filtAt_cons_ping]; exact hlow i hi,
             by rw [filtAt_cons_ping]; exact hat,
             fun i hi => closedOrAbsent_congr i _ rest (filtAt_cons_ping i rest) (hoth i hi)⟩
    | messageDelta sr ot =>
      rw [audit_cons_msgDelta] at h
      obtain ⟨hlow, hat, hoth⟩ := audit_open rest n m h
      exact ⟨fun i hi => by rw [filtAt_cons_msgDelta]; exact hlow i hi,
             by rw [filtAt_cons_msgDelta]; exact hat,
             fun i hi => closedOrAbsent_congr i _ rest (filtAt_cons_msgDelta i sr ot rest)
               (hoth i hi)⟩
    | messageStop =>
      rw [audit_cons_msgStop] at h
      obtain ⟨hlow, hat, hoth⟩ := audit_open rest n m h
      exact ⟨fun i hi => by rw [filtAt_cons_msgStop]; exact hlow i hi,
             by rw [filtAt_cons_msgStop]; exact hat,
             fun i hi => closedOrAbsent_congr i _ rest (filtAt_cons_msgStop i rest)
               (hoth i hi)⟩
    | errorEvent msg =>
      rw [audit_cons_error] at h
      obtain ⟨hlow, hat, hoth⟩ := audit_open rest n m h
      exact ⟨fun i hi => by rw [filtAt_cons_error]; exact hlow i hi,
             by rw [filtAt_cons_error]; exact hat,
             fun i hi => closedOrAbsent_congr i _ rest (filtAt_cons_error i msg rest)
               (hoth i hi)⟩

end

/-- Start-index extraction on each event shape. -/
theorem startIndices_cons_start (j : Nat) (b : BlockInfo) (rest : List AnthEvent) :
    startIndices (.contentBlockStart j b :: rest) = j :: startIndices rest := by
  simp [startIndices, List.filterMap_cons]

theorem startIndices_cons_delta (j : Nat) (d : DeltaInfo) (rest : List AnthEvent) :
    startIndices (.contentBlockDelta j d :: rest) = startIndices rest := by
  simp [startIndices, List.filterMap_cons]

theorem startIndices_cons_stop (j : Nat) (rest : List AnthEvent) :
    startIndices (.contentBlockStop j :: rest) = startIndices rest := by
  simp [startIndices, List.filterMap_cons]

theorem startIndices_cons_msgStart (id mo : String) (t : Int) (rest : List AnthEvent) :
    startIndices (.messageStart id mo t :: rest) = startIndices rest := by
  simp [startIndices, List.filterMap_cons]

theorem startIndices_cons_ping (rest : List AnthEvent) :
    startIndices (.ping :: rest) = startIndices rest := by
  simp [startIndices, List.filterMap_cons]

theorem startIndices_cons_msgDelta (sr : String) (ot : Int) (rest : List AnthEvent) :
    startIndices (.messageDelta sr ot :: rest) = startIndices rest := by
  simp [startIndices, List.filterMap_cons]

theorem startIndices_cons_msgStop (rest : List AnthEvent) :
    startIndices (.messageStop :: rest) = startIndices rest := by
  simp [startIndices, List.filterMap_cons]

theorem startIndices_cons_error (m : String) (rest : List AnthEvent) :
    startIndices (.errorEvent m :: rest) = startIndices rest := by
  simp [startIndices, List.filterMap_cons]

/-- The audit counter never decreases, and strictly increases when the open
block gets closed. -/
theorem audit_mono : ∀ (evs : List AnthEvent) (n : Nat) (o : Bool) (m : Nat) (o' : Bool),
    audit evs n o = some (m, o') →
    n ≤ m ∧ (o = true → o' = false → n + 1 ≤ m)
  | [], n, o, m, o', h => by
    rw [audit] at h
    simp only [Option.some.injEq, Prod.mk.injEq] at h
    obtain ⟨h1, h2⟩ := h
    subst h1
    subst h2
    exact ⟨le_refl n, fun ht hf => by rw [ht] at hf; exact absurd hf (by simp)⟩
  | e :: rest, n, o, m, o', h => by
    cases e with
    | contentBlockStart j b =>
      rw [audit_cons_start] at h
      by_cases hc : (o = false ∧ j = n)
      · rw [if_pos hc] at h
        have ih := audit_mono rest n true m o' h
        exact ⟨ih.1, fun ht _ => absurd (hc.1 ▸ ht) (by simp)⟩
      · rw [if_neg hc] at h
        simp at h
    | contentBlockDelta j d =>
      rw [audit_cons_delta] at h
      by_cases hc : (o = true ∧ j = n)
      · rw [if_pos hc] at h
        have ih := audit_mono rest n true m o' h
        exact ⟨ih.1, fun _ hf => ih.2 rfl hf⟩
      · rw [if_neg hc] at h
        simp at h
    | contentBlockStop j =>
      rw [audit_cons_stop] at h
      by_cases hc : (o = true ∧ j = n)
      · rw [if_pos hc] at h
        have ih := audit_mono rest (n + 1) false m o' h
        exact ⟨by omega, fun _ _ => ih.1⟩
      · rw [if_neg hc] at h
        simp at h
    | messageStart id mo t =>
      rw [audit_cons_msgStart] at h
      exact audit_mono rest n o m o' h
    | ping =>
      rw [audit_cons_ping] at h
      exact audit_mono rest n o m o' h
    | messageDelta sr ot =>
      rw [audit_cons_msgDelta] at h
      exact audit_mono rest n o m o' h
    | messageStop =>
      rw [audit_cons_msgStop] at h
      exact audit_mono rest n o m o' h
    | errorEvent msg =>
      rw [audit_cons_error] at h
      exact audit_mono rest n o m o' h

mutual

/-- Start indices of an accepted trace from a closed state: the counter range. -/
theorem audit_starts_closed : ∀ (evs : List AnthEvent) (n m : Nat),
    audit evs n false = some (m, false) →
    startIndices evs = List.range' n (m - n)
  | [], n, m, h => by
    rw [audit] at h
    simp only [Option.some.injEq, Prod.mk.injEq] at h
    rw [← h.1]
    simp [startIndices]
  | e :: rest, n, m, h => by
    cases e with
    | contentBlockStart j b =>
      rw [audit_cons_start] at h
      by_cases hc : (false = false ∧ j = n)
      · rw [if_pos hc] at h
        obtain ⟨-, hj⟩ := hc
        subst hj
        have hge := (audit_mono rest j true m false h).2 rfl rfl
        have ih := audit_starts_open rest j m h
        rw [startIndices_cons_start, ih,
          show m - j = (m - (j + 1)) + 1 from by omega, List.range'_succ]
      · rw [if_neg hc] at h
        simp at h
    | contentBlockDelta j d =>
      rw [audit_cons_delta, if_neg (by simp)] at h
      simp at h
    | contentBlockStop j =>
      rw [audit_cons_stop, if_neg (by simp)] at h
      simp at h
    | messageStart id mo t =>
      rw [audit_cons_msgStart] at h
      rw [startIndices_cons_msgStart]
      exact audit_starts_closed rest n m h
    | ping =>
      rw [audit_cons_ping] at h
      rw [startIndices_cons_ping]
      exact audit_starts_closed rest n m h
    | messageDelta sr ot =>
      rw [audit_cons_msgDelta] at h
      rw [startIndices_cons_msgDelta]
      exact audit_starts_closed rest n m h
    | messageStop =>
      rw [audit_cons_msgStop] at h
      rw [startIndices_cons_msgStop]
      exact audit_starts_closed rest n m h
    | errorEvent msg =>
      rw [audit_cons_error] at h
      rw [startIndices_cons_error]
      exact audit_starts_closed rest n m h

/-- Start indices of an accepted trace from an open state at counter `n`. -/
theorem audit_starts_open : ∀ (evs : List AnthEvent) (n m : Nat),
    audit evs n true = some (m, false) →
    startIndices evs = List.range' (n + 1) (m - (n + 1))
  | [], n, m, h => by
    rw [audit] at h
    simp at h
  | e :: rest, n, m, h => by
    cases e with
    | contentBlockStart j b =>
      rw [audit_cons_start, if_neg (by simp)] at h
      simp at h
    | contentBlockDelta j d =>
      rw [audit_cons_delta] at h
      by_cases hc : (true = true ∧ j = n)
      · rw [if_pos hc] at h
        obtain ⟨-, hj⟩ := hc
        subst hj
        rw [startIndices_cons_delta]
        exact audit_starts_open rest j m h
      · rw [if_neg hc] at h
        simp at h
    | contentBlockStop j =>
      rw [audit_cons_stop] at h
      by_cases hc : (true = true ∧ j = n)
      · rw [if_pos hc] at h
        obtain ⟨-, hj⟩ := hc
        subst hj
        rw [startIndices_cons_stop]
        exact audit_starts_closed rest (j + 1) m h
      · rw [if_neg hc] at h
        simp at h
    | messageStart id mo t =>
      rw [audit_cons_msgStart] at h
      rw [startIndices_cons_msgStart]
      exact audit_starts_open rest n m h
    | ping =>
      rw [audit_cons_ping] at h
      rw [startIndices_cons_ping]
      exact audit_starts_open rest n m h
    | messageDelta sr ot =>
      rw [audit_cons_msgDelta] at h
      rw [startIndices_cons_msgDelta]
      exact audit_starts_open rest n m h
    | messageStop =>
      rw [audit_cons_msgStop] at h
      rw [startIndices_cons_msgStop]
      exact audit_starts_open rest n m h
    | errorEvent msg =>
      rw [audit_cons_error] at h
      rw [startIndices_cons_error]
      exact audit_starts_open rest n m h

end

/-- One part advances the audit exactly to the new translator state. -/
theorem processPart_audit (st : STState) (p : GPartS) :
    audit (processPart st p).1 st.blockIndex st.activeBlockType.isSome =
      some ((processPart st p).2.blockIndex, (processPart st p).2.activeBlockType.isSome) := by
  rcases hfc : p.functionCall with _ | fc
  · by_cases hth : (p.thought.getD false = true ∧ (p.text.getD "") ≠ "")
    · rcases hab : st.activeBlockType with _ | k
      · simp [processPart, hfc, hth, hab, audit_cons_start, audit_cons_delta, audit]
      · by_cases hk : k = ActiveKind.thinking
        · subst hk
          simp [processPart, hfc, hth, hab, audit_cons_delta, audit]
        · simp [processPart, hfc, hth, hab, hk, audit_cons_stop, audit_cons_start,
            audit_cons_delta, audit]
    · by_cases htx : (p.text.getD "") ≠ ""
      · have hth2 : ¬ (p.thought.getD false = true) := fun ha => hth ⟨ha, htx⟩
        rcases hab : st.activeBlockType with _ | k
        · simp [processPart, hfc, hth2, htx, hab, audit_cons_start, audit_cons_delta, audit]
        · by_cases hk : k = ActiveKind.text
          · subst hk
            simp [processPart, hfc, hth2, htx, hab, audit_cons_delta, audit]
          · have hk2 : k = ActiveKind.thinking := by
              cases k
              · exact absurd rfl hk
              · rfl
            subst hk2
            simp [processPart, hfc, hth2, htx, hab, emitSigDelta, audit_cons_delta,
              audit_cons_stop, audit_cons_start, audit]
      · simp [processPart, hfc, hth, htx, audit]
  · rcases hab : st.activeBlockType with _ | k
    · simp [processPart, hfc, hab, audit_cons_start, audit_cons_delta, audit_cons_stop,
        audit]
    · by_cases hk : k = ActiveKind.thinking
      · subst hk
        simp [processPart, hfc, hab, emitSigDelta, audit_cons_delta, audit_cons_stop,
          audit_cons_start, audit]
      · simp [processPart, hfc, hab, hk, audit_cons_stop, audit_cons_start,
          audit_cons_delta, audit]

/-- A list of parts advances the audit exactly to the new translator state. -/
theorem processParts_audit : ∀ (ps : List GPartS) (st : STState),
    audit (processParts st ps).1 st.blockIndex st.activeBlockType.isSome =
      some ((processParts st ps).2.blockIndex, (processParts st ps).2.activeBlockType.isSome)
  | [], st => by simp [processParts, audit]
  | p :: ps, st => by
    rw [processParts]
    simp only []
    rw [audit_append, processPart_audit st p]
    exact processParts_audit ps (processPart st p).2

/-- A candidate without a truthy finish emits nothing in its finish phase. -/
theorem processFinish_nofin (st : STState) (c : SCandidate) (h : candFinish c = false) :
    processFinish st c.finishReason = ([], st) := by
  rcases hfr : c.finishReason with _ | s
  · rfl
  · rw [candFinish, hfr] at h
    simp at h
    simp [processFinish, h]

/-- A candidate without a truthy finish advances the audit exactly to the new
state. -/
theorem processCandidate_nofin_audit (st : STState) (c : SCandidate)
    (h : candFinish c = false) :
    audit (processCandidate st c).1 st.blockIndex st.activeBlockType.isSome =
      some ((processCandidate st c).2.blockIndex,
            (processCandidate st c).2.activeBlockType.isSome) := by
  rw [processCandidate]
  simp only [processFinish_nofin _ c h, List.append_nil]
  exact processParts_audit c.parts st

/-- A list of candidates without truthy finishes advances the audit exactly. -/
theorem processCandidates_nofin_audit : ∀ (cs : List SCandidate) (st : STState),
    (∀ c ∈ cs, candFinish c = false) →
    audit (processCandidates st cs).1 st.blockIndex st.activeBlockType.isSome =
      some ((processCandidates st cs).2.blockIndex,
            (processCandidates st cs).2.activeBlockType.isSome)
  | [], st, _ => by simp [processCandidates, audit]
  | c :: cs, st, h => by
    rw [processCandidates]
    simp only []
    rw [audit_append, processCandidate_nofin_audit st c (h c (List.mem_cons_self c cs))]
    exact processCandidates_nofin_audit cs (processCandidate st c).2
      (fun x hx => h x (List.mem_cons_of_mem c hx))

/-- Usage tracking does not touch the block bookkeeping. -/
theorem updateUsage_blocks (st : STState) (u : Option SUsage) :
    (updateUsage st u).blockIndex = st.blockIndex ∧
    (updateUsage st u).activeBlockType = st.activeBlockType ∧
    (updateUsage st u).messageId = st.messageId ∧
    (updateUsage st u).fakeModel = st.fakeModel ∧
    (updateUsage st u).started = st.started := by
  rcases u with _ | us
  · exact ⟨rfl, rfl, rfl, rfl, rfl⟩
  · rcases us with ⟨pt, ct⟩
    rcases pt with _ | n <;> rcases ct with _ | n2 <;>
      simp only [updateUsage] <;>
      first
        | (split_ifs <;> simp)
        | simp

/-- The prelude leaves the audit state unchanged. -/
theorem preludeEvents_audit (st : STState) (n : Nat) (o : Bool) :
    audit (preludeEvents st).1 n o = some (n, o) := by
  by_cases hs : st.started = false
  · simp [preludeEvents, hs, audit_cons_msgStart, audit_cons_ping, audit]
  · simp [preludeEvents, hs, audit]

/-- The prelude does not touch the block bookkeeping. -/
theorem preludeEvents_blocks (st : STState) :
    (preludeEvents st).2.blockIndex = st.blockIndex ∧
    (preludeEvents st).2.activeBlockType = st.activeBlockType := by
  by_cases hs : st.started = false <;> simp [preludeEvents, hs]

/-- A chunk without error and without any finishing candidate advances the
audit exactly to the new translator state. -/
theorem processChunk_nofin_audit (st : STState) (c : GChunk) (herr : chunkErr c = false)
    (hfin : ∀ cand ∈ c.candidates, candFinish cand = false) :
    audit (processChunk st c).1 st.blockIndex st.activeBlockType.isSome =
      some ((processChunk st c).2.blockIndex,
            (processChunk st c).2.activeBlockType.isSome) := by
  have herr2 : (match c.error with | some e => jsTruthy e | none => false) = false := herr
  rw [processChunk]
  rw [if_neg (by rw [herr2]; simp)]
  simp only []
  rw [audit_append, preludeEvents_audit]
  obtain ⟨hbi, hab, _, _, _⟩ := updateUsage_blocks st c.usageMetadata
  obtain ⟨hpb, hpa⟩ := preludeEvents_blocks (updateUsage st c.usageMetadata)
  have h2 := processCandidates_nofin_audit c.candidates
    (preludeEvents (updateUsage st c.usageMetadata)).2 hfin
  rw [hpb, hpa, hbi, hab] at h2
  exact h2

/-- Chunk sequences without errors or finishes advance the audit exactly. -/
theorem processMany_nofin_audit : ∀ (chunks : List GChunk) (st : STState),
    (∀ c ∈ chunks, chunkErr c = false) →
    (∀ c ∈ chunks, ∀ cand ∈ c.candidates, candFinish cand = false) →
    audit (processMany st chunks).1 st.blockIndex st.activeBlockType.isSome =
      some ((processMany st chunks).2.blockIndex,
            (processMany st chunks).2.activeBlockType.isSome)
  | [], st, _, _ => by simp [processMany, audit]
  | c :: cs, st, he, hf => by
    rw [processMany]
    simp only []
    rw [audit_append, processChunk_nofin_audit st c (he c (List.mem_cons_self c cs))
      (hf c (List.mem_cons_self c cs))]
    exact processMany_nofin_audit cs (processChunk st c).2
      (fun x hx => he x (List.mem_cons_of_mem c hx))
      (fun x hx => hf x (List.mem_cons_of_mem c hx))

/-- A truthy finish closes any open block and ends with `message_stop`: the
audit accepts its events into a closed state. -/
theorem processFinish_fin_audit (st : STState) (c : SCandidate) (h : candFinish c = true) :
    audit (processFinish st c.finishReason).1 st.blockIndex st.activeBlockType.isSome =
      some (st.blockIndex + (if st.activeBlockType.isSome then 1 else 0), false) := by
  rcases hfr : c.finishReason with _ | s
  · rw [candFinish, hfr] at h
    simp at h
  · rw [candFinish, hfr] at h
    simp only [decide_eq_true_eq] at h
    rw [processFinish]
    rcases hab : st.activeBlockType with _ | k
    · simp [hab, h, audit_cons_msgDelta, audit_cons_msgStop, audit]
    · by_cases hk : k = ActiveKind.thinking
      · subst hk
        simp [hab, h, emitSigDelta, audit_cons_delta, audit_cons_stop,
          audit_cons_msgDelta, audit_cons_msgStop, audit]
      · simp [hab, h, hk, audit_cons_stop, audit_cons_msgDelta, audit_cons_msgStop, audit]

/-- A truthy finish emits a nonempty event list ending in `message_stop`. -/
theorem processFinish_fin_last (st : STState) (c : SCandidate) (h : candFinish c = true) :
    (processFinish st c.finishReason).1.getLast? = some .messageStop ∧
    (processFinish st c.finishReason).1 ≠ [] := by
  rcases hfr : c.finishReason with _ | s
  · rw [candFinish, hfr] at h
    simp at h
  · rw [candFinish, hfr] at h
    simp only [decide_eq_true_eq] at h
    rw [processFinish]
    simp only [ne_eq, h, not_false_eq_true, if_true]
    constructor
    · rw [show ∀ (xs : List AnthEvent) (a b : AnthEvent), xs ++ [a, b] = (xs ++ [a]) ++ [b]
        from by intro xs a b; simp, List.getLast?_concat]
    · simp

/-- Candidate processing distributes over list concatenation. -/
theorem processCandidates_append : ∀ (xs ys : List SCandidate) (st : STState),
    processCandidates st (xs ++ ys) =
      ((processCandidates st xs).1 ++ (processCandidates (processCandidates st xs).2 ys).1,
       (processCandidates (processCandidates st xs).2 ys).2)
  | [], ys, st => by simp [processCandidates]
  | x :: xs, ys, st => by
    rw [List.cons_append, processCandidates, processCandidates]
    simp only []
    rw [processCandidates_append xs ys (processCandidate st x).2]
    simp

/-- A candidate with a truthy finish: the audit accepts its events into a
closed state, and they end with `message_stop`. -/
theorem processCandidate_fin (st : STState) (c : SCandidate) (h : candFinish c = true) :
    (∃ k, audit (processCandidate st c).1 st.blockIndex st.activeBlockType.isSome =
       some (k, false)) ∧
    (processCandidate st c).1.getLast? = some .messageStop ∧
    (processCandidate st c).1 ≠ [] := by
  rw [processCandidate]
  simp only []
  obtain ⟨hlast, hne⟩ := processFinish_fin_last (processParts st c.parts).2 c h
  refine ⟨⟨(processParts st c.parts).2.blockIndex +
      (if (processParts st c.parts).2.activeBlockType.isSome then 1 else 0), ?_⟩, ?_, ?_⟩
  · rw [audit_append, processParts_audit]
    exact processFinish_fin_audit (processParts st c.parts).2 c h
  · rw [List.getLast?_append, hlast]
    rfl
  · intro hcon
    rw [List.append_eq_nil] at hcon
    exact hne hcon.2

/-- Sequential audit run when the first part is accepted. -/
theorem audit_append_ok (a b : List AnthEvent) (n : Nat) (o : Bool) (n2 : Nat) (o2 : Bool)
    (h : audit a n o = some (n2, o2)) : audit (a ++ b) n o = audit b n2 o2 := by
  rw [audit_append, h]

/-- The final chunk: no error, its candidates being non-finishing ones
followed by one finishing candidate. Its events are audit-accepted into a
closed state and end with `message_stop`. -/
theorem processChunk_fin (st : STState) (cf : GChunk) (preC : List SCandidate)
    (finC : SCandidate) (herr : chunkErr cf = false)
    (hcands : cf.candidates = preC ++ [finC])
    (hpre : ∀ c ∈ preC, candFinish c = false)
    (hfin : candFinish finC = true) :
    (∃ k, audit (processChunk st cf).1 st.blockIndex st.activeBlockType.isSome =
       some (k, false)) ∧
    (processChunk st cf).1.getLast? = some .messageStop ∧
    (processChunk st cf).1 ≠ [] := by
  have herr2 : (match cf.error with | some e => jsTruthy e | none => false) = false := herr
  rw [processChunk]
  rw [if_neg (by rw [herr2]; simp)]
  simp only []
  set st1 := updateUsage st cf.usageMetadata with hst1
  set stp := (preludeEvents st1).2 with hstp
  rw [hcands, processCandidates_append]
  simp only []
  rw [show processCandidates (processCandidates stp preC).2 [finC] =
      ((processCandidate (processCandidates stp preC).2 finC).1 ++ [],
       (processCandidates
         (processCandidate (processCandidates stp preC).2 finC).2 []).2) from by
    rw [processCandidates]
    simp [processCandidates]]
  rw [List.append_nil]
  obtain ⟨⟨k, hkaud⟩, hlast, hne⟩ :=
    processCandidate_fin (processCandidates stp preC).2 finC hfin
  obtain ⟨hbi, hab, _, _, _⟩ := updateUsage_blocks st cf.usageMetadata
  obtain ⟨hpb, hpa⟩ := preludeEvents_blocks st1
  have hb1 : stp.blockIndex = st.blockIndex := by rw [hstp, hpb, hst1, hbi]
  have ha1 : stp.activeBlockType = st.activeBlockType := by rw [hstp, hpa, hst1, hab]
  refine ⟨⟨k, ?_⟩, ?_, ?_⟩
  · rw [audit_append_ok _ _ _ _ _ _
      (preludeEvents_audit st1 st.blockIndex st.activeBlockType.isSome)]
    have hc := processCandidates_nofin_audit preC stp hpre
    rw [hb1, ha1] at hc
    rw [audit_append_ok _ _ _ _ _ _ hc]
    exact hkaud
  · rw [List.getLast?_append, List.getLast?_append, hlast]
    rfl
  · intro hcon
    rw [List.append_eq_nil, List.append_eq_nil] at hcon
    exact hne hcon.2.2

/-- Chunk processing distributes over list concatenation. -/
theorem processMany_append : ∀ (xs ys : List GChunk) (st : STState),
    processMany st (xs ++ ys) =
      ((processMany st xs).1 ++ (processMany (processMany st xs).2 ys).1,
       (processMany (processMany st xs).2 ys).2)
  | [], ys, st => by simp [processMany]
  | x :: xs, ys, st => by
    rw [List.cons_append, processMany, processMany]
    simp only []
    rw [processMany_append xs ys (processChunk st x).2]
    simp

/-- A non-error chunk fed to a not-yet-started translator begins with
`message_start`. -/
theorem processChunk_head (st : STState) (c : GChunk) (herr : chunkErr c = false)
    (hs : st.started = false) :
    ∃ tks, (processChunk st c).1.head? =
      some (.messageStart st.messageId st.fakeModel tks) := by
  have herr2 : (match c.error with | some e => jsTruthy e | none => false) = false := herr
  rw [processChunk, if_neg (by rw [herr2]; simp)]
  simp only []
  obtain ⟨-, -, hmid, hmod, hsta⟩ := updateUsage_blocks st c.usageMetadata
  have hs1 : (updateUsage st c.usageMetadata).started = false := by rw [hsta]; exact hs
  refine ⟨(updateUsage st c.usageMetadata).inputTokens, ?_⟩
  simp [preludeEvents, hs1, hmid, hmod]

/-- C1 (corrected): for a fresh StreamTranslator fed error-free chunks whose
single truthy `finishReason` sits on the last candidate of the last chunk, the
concatenated outputs are block-disciplined: every index's block events form
exactly one `content_block_start`, then deltas, then exactly one
`content_block_stop` (or are absent), the start indices are `0, 1, 2, …` in
order, `message_start` is the first event and `message_stop` is the last.
(The original unconditional claim is refuted by `stream_after_stop`: the
finish handler does not advance `blockIndex`, so chunks processed after a
`finishReason` reuse an already-closed index and emit after `message_stop`.) -/
theorem stream_block_discipline (msgId model : String) (A : List GChunk)
    (cf : GChunk) (preC : List SCandidate) (finC : SCandidate)
    (hA : ∀ c ∈ A, chunkErr c = false)
    (hAfin : ∀ c ∈ A, ∀ cand ∈ c.candidates, candFinish cand = false)
    (hcf : chunkErr cf = false)
    (hcands : cf.candidates = preC ++ [finC])
    (hpre : ∀ cand ∈ preC, candFinish cand = false)
    (hfin : candFinish finC = true) :
    (∀ i, closedOrAbsent i (runStream msgId model (A ++ [cf]))) ∧
    (∃ k, startIndices (runStream msgId model (A ++ [cf])) = List.range k) ∧
    (∃ tks, (runStream msgId model (A ++ [cf])).head? =
       some (.messageStart msgId model tks)) ∧
    (runStream msgId model (A ++ [cf])).getLast? = some .messageStop := by
  have hsplit : runStream msgId model (A ++ [cf]) =
      (processMany (initST msgId model) A).1 ++
        (processChunk (processMany (initST msgId model) A).2 cf).1 := by
    rw [runStream, processMany_append]
    simp [processMany]
  have h1 := processMany_nofin_audit A (initST msgId model) hA hAfin
  obtain ⟨⟨k, hk⟩, hlast, hne⟩ :=
    processChunk_fin (processMany (initST msgId model) A).2 cf preC finC hcf hcands hpre hfin
  have haud : audit (runStream msgId model (A ++ [cf])) 0 false = some (k, false) := by
    rw [hsplit]
    rw [show (0 : Nat) = (initST msgId model).blockIndex from rfl,
      show false = (initST msgId model).activeBlockType.isSome from rfl]
    rw [audit_append_ok _ _ _ _ _ _ h1]
    exact hk
  refine ⟨(audit_closed _ 0 k haud).2, ⟨k, ?_⟩, ?_, ?_⟩
  · have hst := audit_starts_closed _ 0 k haud
    rw [hst, Nat.sub_zero, ← List.range_eq_range']
  · cases hAe : A with
    | nil =>
      obtain ⟨tks, hh⟩ := processChunk_head (initST msgId model) cf hcf rfl
      refine ⟨tks, ?_⟩
      rw [hAe] at hsplit
      rw [hsplit]
      simp only [processMany, List.nil_append]
      exact hh
    | cons c0 A' =>
      obtain ⟨tks, hh⟩ := processChunk_head (initST msgId model) c0
        (hA c0 (by rw [hAe]; exact List.mem_cons_self c0 A')) rfl
      refine ⟨tks, ?_⟩
      rw [runStream, List.cons_append, processMany]
      simp only []
      rw [List.head?_append, hh]
      rfl
  · rw [hsplit, List.getLast?_append, hlast]
    rfl

/-- Witness for C1 (amended): a text chunk then a finishing chunk satisfy the
block discipline. -/
theorem stream_block_discipline_witness :
    (∀ i, closedOrAbsent i (runStream "msg1" "model-x" [wChunk1, wChunk2])) ∧
    (∃ k, startIndices (runStream "msg1" "model-x" [wChunk1, wChunk2]) = List.range k) ∧
    (∃ tks, (runStream "msg1" "model-x" [wChunk1, wChunk2]).head? =
       some (.messageStart "msg1" "model-x" tks)) ∧
    (runStream "msg1" "model-x" [wChunk1, wChunk2]).getLast? = some .messageStop :=
  stream_block_discipline "msg1" "model-x" [wChunk1] wChunk2 []
    { parts := [{ text := some " world" }], finishReason := some "STOP" }
    (by decide) (by decide) (by decide) (by decide) (by decide) (by decide)

/-- C1 counterexample: a chunk carrying a `finishReason` followed by a further
content chunk. The finish handler does not advance `blockIndex`, so the later
chunk starts a second block at the already-used index 0 and emits events after
`message_stop`: the start indices are `[0, 0]` (not strictly increasing), the
last event is not `message_stop`, and index 0 is not well-bracketed. -/
theorem stream_after_stop :
    startIndices (runStream "m1" "fake" [exChunkFinish, exChunkAfter]) = [0, 0] ∧
    (runStream "m1" "fake" [exChunkFinish, exChunkAfter]).getLast? ≠
      some AnthEvent.messageStop ∧
    ¬ closedOrAbsent 0 (runStream "m1" "fake" [exChunkFinish, exChunkAfter]) := by
  refine ⟨by decide, by decide, ?_⟩
  intro h
  rcases h with h | ⟨b, ds, heq, -⟩
  · exact absurd h (by decide)
  · have hlast := congrArg List.getLast? heq
    have hconc : (filtAt 0 (runStream "m1" "fake" [exChunkFinish, exChunkAfter])).getLast? =
        some (AnthEvent.contentBlockDelta 0 (.textDelta "Bye")) := by decide
    rw [hconc, show AnthEvent.contentBlockStart 0 b :: (ds ++ [AnthEvent.contentBlockStop 0]) =
        (AnthEvent.contentBlockStart 0 b :: ds) ++ [AnthEvent.contentBlockStop 0] from by
      simp, List.getLast?_concat] at hlast
    exact absurd hlast (by simp)
